import Mathlib

/-!
# Temperature-converter gRPC backend (`backend/main.go`)

A shallow embedding of the two conversion handlers and of the start-up code of
`main`, together with the arithmetic they run on.

The handlers compute on Go `float64` values.  These are modelled by value: a
`F64` is NaN, a signed infinity, or a signed finite magnitude counted in units
of `2^-1074` (the spacing of the subnormal numbers, of which every finite
binary64 value is an integer multiple).  The four arithmetic operations are
the IEEE-754 ones, rounding the exact result to nearest with ties to even.

Go evaluates `+ - * /` on `float64` operands as these operations.  The language
lets an implementation fuse `x*y + z` into a single rounding; neither handler
expression has that shape (a difference feeds a product, a quotient feeds a sum),
so every operation rounds on its own.

The handler bodies are written once, generically in the number type, so that
the same expression can be read in binary64 arithmetic (`F64`) and in exact
arithmetic (`ℚ`).
-/

set_option exponentiation.threshold 10000

namespace TempConverter

/-! ## binary64 values -/

/-- A binary64 value.  `fin neg mag` is the finite number
`(-1)^neg * mag * 2^-1074`; both zeros are present (`fin false 0`, `fin true 0`).
All NaNs are identified. -/
inductive F64 where
  | nan : F64
  | inf (neg : Bool) : F64
  | fin (neg : Bool) (mag : Nat) : F64
  deriving DecidableEq, Repr

/-- Binary search for the index of the leading one bit: with `2^k ≤ n < 2^(k + 2^j)`
on entry the result `r` has `2^r ≤ n < 2^(r+1)`. -/
def lgAux : Nat → Nat → Nat → Nat
  | 0, k, _ => k
  | j + 1, k, n => if 2 ^ (k + 2 ^ j) ≤ n then lgAux j (k + 2 ^ j) n else lgAux j k n

/-- Floor of the binary logarithm, for `0 < n < 2^8192` (and `lg 0 = 0`).  Every
quotient that the operations below round is far inside this range. -/
def lg (n : Nat) : Nat := lgAux 13 0 n

/-- Quotient `n / d` rounded to the nearest integer, ties to the even one. -/
def rneDiv (n d : Nat) : Nat :=
  if 2 * (n % d) < d then n / d
  else if d < 2 * (n % d) then n / d + 1
  else if (n / d) % 2 = 0 then n / d else n / d + 1

/-- Number of low bits (below the unit `2^-1074`) that a 53-bit significand
cannot hold for a value whose integer part, in units, is `q`. -/
def ulpShift (q : Nat) : Nat := lg q - 52

/-- The rational `n / d` (in units of `2^-1074`) rounded to 53 significant bits,
nearest-even, with unbounded exponent range above and the subnormal grid below. -/
def roundMag (n d : Nat) : Nat :=
  rneDiv n (d * 2 ^ ulpShift (n / d)) * 2 ^ ulpShift (n / d)

/-- Magnitude, in units, of the overflow threshold `2^1024`. -/
def overflowMag : Nat := 2 ^ 2098

/-- Rounding of `(-1)^neg * n / d` units to binary64: overflow gives an infinity. -/
def F64.round (neg : Bool) (n d : Nat) : F64 :=
  if roundMag n d < overflowMag then .fin neg (roundMag n d) else .inf neg

/-- Well-formed binary64 values: a finite magnitude is below `2^1024` and has at
most 53 significant bits. -/
def F64.valid : F64 → Bool
  | .nan => true
  | .inf _ => true
  | .fin _ m => decide (m < overflowMag) && decide (m % 2 ^ ulpShift m = 0)

def F64.isNaN : F64 → Bool
  | .nan => true
  | _ => false

def F64.isFinite : F64 → Bool
  | .fin _ _ => true
  | _ => false

/-- Negation flips the sign, also of zeros and infinities. -/
def F64.neg : F64 → F64
  | .nan => .nan
  | .inf s => .inf (!s)
  | .fin s m => .fin (!s) m

def F64.abs : F64 → F64
  | .nan => .nan
  | .inf _ => .inf false
  | .fin _ m => .fin false m

/-- IEEE-754 addition, round to nearest even.  An exact zero sum of operands of
opposite sign is `+0`; equal-signed zeros keep their sign. -/
def F64.add : F64 → F64 → F64
  | .nan, _ => .nan
  | _, .nan => .nan
  | .inf s, .inf t => if s = t then .inf s else .nan
  | .inf s, .fin _ _ => .inf s
  | .fin _ _, .inf t => .inf t
  | .fin s a, .fin t b =>
    if s = t then F64.round s (a + b) 1
    else if b < a then F64.round s (a - b) 1
    else if a < b then F64.round t (b - a) 1
    else .fin false 0

/-- IEEE-754 subtraction: `x - y = x + (-y)`. -/
def F64.sub (x y : F64) : F64 := F64.add x (F64.neg y)

/-- IEEE-754 multiplication.  The exact product of two magnitudes counted in
units of `2^-1074` is `a * b / 2^1074` units. -/
def F64.mul : F64 → F64 → F64
  | .nan, _ => .nan
  | _, .nan => .nan
  | .inf s, .inf t => .inf (xor s t)
  | .inf s, .fin t b => if b = 0 then .nan else .inf (xor s t)
  | .fin s a, .inf t => if a = 0 then .nan else .inf (xor s t)
  | .fin s a, .fin t b => F64.round (xor s t) (a * b) (2 ^ 1074)

/-- IEEE-754 division.  The exact quotient of two magnitudes counted in units of
`2^-1074` is `a * 2^1074 / b` units. -/
def F64.div : F64 → F64 → F64
  | .nan, _ => .nan
  | _, .nan => .nan
  | .inf _, .inf _ => .nan
  | .inf s, .fin t _ => .inf (xor s t)
  | .fin s _, .inf t => .fin (xor s t) 0
  | .fin s a, .fin t b =>
    if b = 0 then (if a = 0 then .nan else .inf (xor s t))
    else F64.round (xor s t) (a * 2 ^ 1074) b

/-- Conversion of a non-negative integer constant. -/
def F64.ofNat (n : Nat) : F64 := F64.round false (n * 2 ^ 1074) 1

/-- Conversion of the non-negative decimal constant `n / d` (as `98.6 = 986 / 10`),
rounded to nearest even as the compiler does. -/
def F64.ofRatio (n d : Nat) : F64 := F64.round false (n * 2 ^ 1074) d

/-- The value of a 64-bit pattern: sign bit, 11 exponent bits, 52 fraction bits. -/
def F64.ofBits (b : Nat) : F64 :=
  if b / 2 ^ 52 % 2048 = 2047 then
    (if b % 2 ^ 52 = 0 then .inf (decide (b / 2 ^ 63 % 2 = 1)) else .nan)
  else if b / 2 ^ 52 % 2048 = 0 then .fin (decide (b / 2 ^ 63 % 2 = 1)) (b % 2 ^ 52)
  else .fin (decide (b / 2 ^ 63 % 2 = 1)) ((2 ^ 52 + b % 2 ^ 52) * 2 ^ (b / 2 ^ 52 % 2048 - 1))

/-- Position of a non-NaN value on the extended line, in units of `2^-1074`;
the infinities sit at `±2^1024`, beyond every finite value. -/
def F64.key : F64 → Int
  | .nan => 0
  | .inf s => if s then -(overflowMag : Int) else (overflowMag : Int)
  | .fin s m => if s then -(m : Int) else (m : Int)

/-- IEEE-754 `<`: false when an operand is NaN; `-0 < +0` is false. -/
def F64.lt (a b : F64) : Bool := !a.isNaN && !b.isNaN && decide (a.key < b.key)

/-- IEEE-754 `<=`: false when an operand is NaN. -/
def F64.le (a b : F64) : Bool := !a.isNaN && !b.isNaN && decide (a.key ≤ b.key)

/-- IEEE-754 `==`: false when an operand is NaN; `-0 == +0`. -/
def F64.eq (a b : F64) : Bool := !a.isNaN && !b.isNaN && decide (a.key = b.key)

/-- The real number denoted by a finite value (`0` for NaN and the infinities). -/
def F64.toRat : F64 → ℚ
  | .fin s m => (if s then -(m : ℚ) else (m : ℚ)) / 2 ^ 1074
  | _ => 0

instance : Add F64 := ⟨F64.add⟩
instance : Sub F64 := ⟨F64.sub⟩
instance : Mul F64 := ⟨F64.mul⟩
instance : Div F64 := ⟨F64.div⟩
instance : Neg F64 := ⟨F64.neg⟩
instance (n : Nat) : OfNat F64 n := ⟨F64.ofNat n⟩

/-! ## Messages, logger and handlers (`main.go`, lines 17-34) -/

structure FahrenheitRequest (α : Type) where
  Fahrenheit : α
  deriving DecidableEq, Repr

structure CelsiusResponse (α : Type) where
  Celsius : α
  deriving DecidableEq, Repr

structure CelsiusRequest (α : Type) where
  Celsius : α
  deriving DecidableEq, Repr

structure FahrenheitResponse (α : Type) where
  Fahrenheit : α
  deriving DecidableEq, Repr

/-- The embedded `pb.UnimplementedTemperatureConverterServer`: a struct without fields. -/
structure UnimplementedTemperatureConverterServer where
  deriving DecidableEq, Repr

/-- The `server` struct: its only member is the embedded unimplemented server. -/
structure server where
  UnimplementedTemperatureConverterServer : UnimplementedTemperatureConverterServer
  deriving DecidableEq, Repr

/-- What a handler can see of a `context.Context`. -/
structure Context where
  deadline : Option Nat
  cancelled : Bool
  values : List (String × String)
  deriving DecidableEq, Repr

/-- A Go `error` value. -/
structure Error where
  msg : String
  deriving DecidableEq, Repr

/-- Run-time panics a handler body can raise. -/
inductive Panic where
  | nilPointerDereference
  deriving DecidableEq, Repr

/-- One call of `log.Printf`: the format string and its arguments. -/
structure LogEntry (α : Type) where
  format : String
  args : List α
  deriving DecidableEq, Repr

/-- The output of the standard logger so far, oldest entry first. -/
abbrev Logger (α : Type) := List (LogEntry α)

def Printf {α : Type} (log : Logger α) (format : String) (args : List α) : Logger α :=
  log ++ [⟨format, args⟩]

section handlers

variable {α : Type} [Add α] [Sub α] [Mul α] [Div α] [OfNat α 32] [OfNat α 5] [OfNat α 9]

/-- `func (s *server) FahrenheitToCelsius(ctx, req) (*pb.CelsiusResponse, error)`.
The request is a pointer: `none` is the nil pointer, whose field access panics
(the gRPC runtime always passes a decoded message).  The result is the response
pointer, the error, and the logger output after the call. -/
def server.FahrenheitToCelsius (_s : server) (_ctx : Context)
    (req : Option (FahrenheitRequest α)) (log : Logger α) :
    Except Panic (Option (CelsiusResponse α) × Option Error × Logger α) :=
  match req with
  | none => .error .nilPointerDereference
  | some req =>
    let celsius := (req.Fahrenheit - 32) * 5 / 9
    let log := Printf log "FahrenheitToCelsius: %.2f°F -> %.2f°C" [req.Fahrenheit, celsius]
    .ok (some ⟨celsius⟩, none, log)

/-- `func (s *server) CelsiusToFahrenheit(ctx, req) (*pb.FahrenheitResponse, error)`. -/
def server.CelsiusToFahrenheit (_s : server) (_ctx : Context)
    (req : Option (CelsiusRequest α)) (log : Logger α) :
    Except Panic (Option (FahrenheitResponse α) × Option Error × Logger α) :=
  match req with
  | none => .error .nilPointerDereference
  | some req =>
    let fahrenheit := req.Celsius * 9 / 5 + 32
    let log := Printf log "CelsiusToFahrenheit: %.2f°C -> %.2f°F" [req.Celsius, fahrenheit]
    .ok (some ⟨fahrenheit⟩, none, log)

end handlers

/-- `floatEquals` of `main_test.go`: `math.Abs(a-b) < tolerance`. -/
def floatEquals (a b tolerance : F64) : Bool := F64.lt (F64.abs (a - b)) tolerance

section client

variable {α : Type} [Add α] [Sub α] [Mul α] [Div α] [OfNat α 32] [OfNat α 5] [OfNat α 9]

/-- What a caller reads from `FahrenheitToCelsius` for a request carrying `f`:
`resp.Celsius`, given that the call returned a response and a nil error. -/
def celsiusOf (s : server) (ctx : Context) (log : Logger α) (f : α) : Option α :=
  match s.FahrenheitToCelsius ctx (some ⟨f⟩) log with
  | .ok (some resp, none, _) => some resp.Celsius
  | _ => none

/-- What a caller reads from `CelsiusToFahrenheit` for a request carrying `c`:
`resp.Fahrenheit`, given that the call returned a response and a nil error. -/
def fahrenheitOf (s : server) (ctx : Context) (log : Logger α) (c : α) : Option α :=
  match s.CelsiusToFahrenheit ctx (some ⟨c⟩) log with
  | .ok (some resp, none, _) => some resp.Fahrenheit
  | _ => none

end client

/-- One row of the table of `TestFahrenheitToCelsius`: the call returns without
error and `floatEquals(resp.Celsius, expected, 0.01)` holds.  The request value
travels through the in-process connection unchanged. -/
def passesFahrenheitToCelsius (s : server) (ctx : Context) (log : Logger F64)
    (fahrenheit expected : F64) : Bool :=
  match celsiusOf s ctx log fahrenheit with
  | some celsius => floatEquals celsius expected (F64.ofRatio 1 100)
  | none => false

/-- One row of the table of `TestCelsiusToFahrenheit`: the call returns without
error and `floatEquals(resp.Fahrenheit, expected, 0.01)` holds. -/
def passesCelsiusToFahrenheit (s : server) (ctx : Context) (log : Logger F64)
    (celsius expected : F64) : Bool :=
  match fahrenheitOf s ctx log celsius with
  | some fahrenheit => floatEquals fahrenheit expected (F64.ofRatio 1 100)
  | none => false

/-! ## Start-up and serve loop (`main.go`, lines 36-64) -/

/-- The process environment; `none` is an unset variable. -/
abbrev Environ := String → Option String

/-- `os.Getenv`: the value of the variable, the empty string when it is not set. -/
def Getenv (env : Environ) (key : String) : String := (env key).getD ""

/-- `healthpb.HealthCheckResponse_ServingStatus`. -/
inductive ServingStatus where
  | UNKNOWN
  | SERVING
  | NOT_SERVING
  | SERVICE_UNKNOWN
  deriving DecidableEq, Repr

/-- The state of a `health.Server`: a status per service name. -/
structure HealthServer where
  statusMap : String → Option ServingStatus

def HealthServer.SetServingStatus (h : HealthServer) (service : String)
    (status : ServingStatus) : HealthServer :=
  ⟨fun name => if name = service then some status else h.statusMap name⟩

/-- The health `Check` call: the status recorded for the service (`none`: not found). -/
def HealthServer.Check (h : HealthServer) (service : String) : Option ServingStatus :=
  h.statusMap service

/-- Services registered on the gRPC server. -/
inductive Service where
  | TemperatureConverter
  | Health
  | Reflection
  deriving DecidableEq, Repr

inductive Phase where
  | initializing
  | serving
  | stopped
  deriving DecidableEq, Repr

/-- The state of the process: where `main` is, the address handed to `net.Listen`,
the registered services, the health server (once created) and the output of the
handlers' logger. -/
structure Process where
  phase : Phase
  address : String
  services : List Service
  health : Option HealthServer
  log : Logger F64

/-- The body of `main` up to the call of `grpcServer.Serve`.  `listen` tells whether
`net.Listen` succeeds on an address, `newHealth` is the server `health.NewServer()`
returns.  A failed `net.Listen` ends the process (`log.Fatalf`). -/
def main (env : Environ) (listen : String → Bool) (newHealth : HealthServer) : Process :=
  let port := Getenv env "PORT"
  let port := if port = "" then "50051" else port
  if listen (":" ++ port) then
    let services := [Service.TemperatureConverter]
    let healthServer := newHealth
    let services := services ++ [Service.Health]
    let healthServer := healthServer.SetServingStatus "" ServingStatus.SERVING
    let services := services ++ [Service.Reflection]
    ⟨Phase.serving, ":" ++ port, services, some healthServer, []⟩
  else
    ⟨Phase.stopped, ":" ++ port, [], none, []⟩

/-- What can happen while `grpcServer.Serve` runs. -/
inductive Event where
  | FahrenheitToCelsius (ctx : Context) (req : FahrenheitRequest F64)
  | CelsiusToFahrenheit (ctx : Context) (req : CelsiusRequest F64)
  | HealthCheck (service : String)
  | ReflectionQuery
  | ServeError

/-- One event of the serve loop.  The conversion calls run the handlers on the
registered `&server{}`; a health check and a reflection query only read; an
error returned by `Serve` ends the process (`log.Fatalf`). -/
def Process.step (p : Process) (ev : Event) : Process :=
  match p.phase with
  | Phase.serving =>
    match ev with
    | Event.FahrenheitToCelsius ctx req =>
      match server.FahrenheitToCelsius ⟨⟨⟩⟩ ctx (some req) p.log with
      | .ok (_, _, log) => { p with log := log }
      | .error _ => { p with phase := Phase.stopped }
    | Event.CelsiusToFahrenheit ctx req =>
      match server.CelsiusToFahrenheit ⟨⟨⟩⟩ ctx (some req) p.log with
      | .ok (_, _, log) => { p with log := log }
      | .error _ => { p with phase := Phase.stopped }
    | Event.HealthCheck _ => p
    | Event.ReflectionQuery => p
    | Event.ServeError => { p with phase := Phase.stopped }
  | _ => p

/-- The process after a sequence of events. -/
def Process.run (p : Process) (evs : List Event) : Process := evs.foldl Process.step p

/-- The answer a client gets to a health check of `service`: there is one only
while the process serves. -/
def Process.observe (p : Process) (service : String) : Option ServingStatus :=
  match p.phase, p.health with
  | Phase.serving, some h => h.Check service
  | _, _ => none

/-! ## Auxiliary notions for the proofs -/

/-- Signed rounding on the extended line: the position of `F64.round` applied to
the exact value `z / d` units. -/
def roundKey (d : Nat) (z : Int) : Int :=
  if z < 0 then -((min (roundMag z.natAbs d) overflowMag : Nat) : Int)
  else ((min (roundMag z.natAbs d) overflowMag : Nat) : Int)

/-- Values that can be compared: not NaN, finite magnitudes below the overflow
threshold. -/
def F64.ok : F64 → Prop
  | .nan => False
  | .inf _ => True
  | .fin _ m => m < overflowMag

/-- Decision, in integers, of `|r - p / q| < tn / td` for a finite `r`. -/
def F64.within (r : F64) (p : Int) (q tn td : Nat) : Bool :=
  match r with
  | .fin _ _ =>
    decide ((r.key * (q : Int) - p * ((2 ^ 1074 : Nat) : Int)).natAbs * td < tn * (q * 2 ^ 1074))
  | _ => false

/-- The value `r` is finite and is the exact result `e` up to one rounding: the
error is at most half a unit `2^-1074`, or `2^-53` of `|e|` if that is larger. -/
def F64.Approx (r : F64) (e : ℚ) : Prop :=
  ∃ s m, r = .fin s m ∧ m < overflowMag ∧ |r.toRat - e| ≤ max (1 / 2 ^ 1075) (|e| / 2 ^ 53)

/-! ## Rounding: logarithm, nearest-even quotient, error and monotonicity -/

theorem lgAux_spec (j : Nat) : ∀ k n : Nat, 2 ^ k ≤ n → n < 2 ^ (k + 2 ^ j) →
    2 ^ lgAux j k n ≤ n ∧ n < 2 ^ (lgAux j k n + 1) := by
  induction j with
  | zero =>
    intro k n h1 h2
    simpa [lgAux] using And.intro h1 h2
  | succ j ih =>
    intro k n h1 h2
    unfold lgAux
    split
    · next h =>
      apply ih _ _ h
      have : k + 2 ^ j + 2 ^ j = k + 2 ^ (j + 1) := by rw [pow_succ]; omega
      rw [this]; exact h2
    · next h =>
      exact ih _ _ h1 (not_le.mp h)

theorem lg_spec {n : Nat} (h0 : 0 < n) (h1 : n < 2 ^ 8192) :
    2 ^ lg n ≤ n ∧ n < 2 ^ (lg n + 1) := by
  apply lgAux_spec 13 0 n
  · simpa using h0
  · simpa using h1

theorem lg_zero : lg 0 = 0 := by decide

theorem lg_eq_of_bounds {n k : Nat} (h1 : 2 ^ k ≤ n) (h2 : n < 2 ^ (k + 1)) (h3 : n < 2 ^ 8192) :
    lg n = k := by
  have h0 : 0 < n := lt_of_lt_of_le (by positivity) h1
  obtain ⟨a, b⟩ := lg_spec h0 h3
  have h4 : lg n < k + 1 := (Nat.pow_lt_pow_iff_right (by norm_num)).mp (lt_of_le_of_lt a h2)
  have h5 : k < lg n + 1 := (Nat.pow_lt_pow_iff_right (by norm_num)).mp (lt_of_le_of_lt h1 b)
  omega

theorem lg_mono {n m : Nat} (h : n ≤ m) (hm : m < 2 ^ 8192) : lg n ≤ lg m := by
  rcases Nat.eq_zero_or_pos n with h0 | h0
  · subst h0; simp [lg_zero]
  · obtain ⟨a, _⟩ := lg_spec h0 (lt_of_le_of_lt h hm)
    obtain ⟨_, b⟩ := lg_spec (lt_of_lt_of_le h0 h) hm
    have : lg n < lg m + 1 := (Nat.pow_lt_pow_iff_right (by norm_num)).mp (lt_of_le_of_lt a (lt_of_le_of_lt h b))
    omega




theorem rneDiv_cases (n d : Nat) : rneDiv n d = n / d ∨ rneDiv n d = n / d + 1 := by
  unfold rneDiv; split_ifs <;> simp

theorem rneDiv_ge (n d : Nat) : n / d ≤ rneDiv n d := by
  rcases rneDiv_cases n d with h | h <;> omega

theorem rneDiv_le (n d : Nat) : rneDiv n d ≤ n / d + 1 := by
  rcases rneDiv_cases n d with h | h <;> omega

/-- The rounded quotient is within half a step of the exact one. -/
theorem rneDiv_err (n d : Nat) (hd : 0 < d) :
    2 * (rneDiv n d * d) ≤ 2 * n + d ∧ 2 * n ≤ 2 * (rneDiv n d * d) + d := by
  have h1 := Nat.div_add_mod n d
  have h2 := Nat.mod_lt n hd
  have h3 : d * (n / d) = n / d * d := Nat.mul_comm _ _
  unfold rneDiv
  have h4 : (n / d + 1) * d = n / d * d + d := by rw [Nat.add_mul, Nat.one_mul]
  split_ifs <;> omega

theorem rneDiv_mono {n m : Nat} (d : Nat) (h : n ≤ m) : rneDiv n d ≤ rneDiv m d := by
  have hq : n / d ≤ m / d := Nat.div_le_div_right h
  rcases Nat.lt_or_ge (n / d) (m / d) with hlt | hge
  · calc rneDiv n d ≤ n / d + 1 := rneDiv_le n d
      _ ≤ m / d := hlt
      _ ≤ rneDiv m d := rneDiv_ge m d
  · have he : n / d = m / d := le_antisymm hq hge
    have h1 := Nat.div_add_mod n d
    have h2 := Nat.div_add_mod m d
    have hr : n % d ≤ m % d := by
      rw [he] at h1; omega
    unfold rneDiv
    rw [he]
    split_ifs <;> omega

theorem lt_pow_ulpShift {q : Nat} (hq : q < 2 ^ 8192) : q < 2 ^ (53 + ulpShift q) := by
  rcases Nat.eq_zero_or_pos q with h0 | h0
  · subst h0; positivity
  · obtain ⟨_, b⟩ := lg_spec h0 hq
    refine lt_of_lt_of_le b (Nat.pow_le_pow_right (by norm_num) ?_)
    unfold ulpShift; omega

theorem pow_ulpShift_le {q : Nat} (hq : q < 2 ^ 8192) (hs : 1 ≤ ulpShift q) :
    2 ^ (52 + ulpShift q) ≤ q := by
  have h0 : 0 < q := by
    rcases Nat.eq_zero_or_pos q with h0 | h0
    · subst h0; simp [ulpShift, lg_zero] at hs
    · exact h0
  obtain ⟨a, _⟩ := lg_spec h0 hq
  have : 52 + ulpShift q = lg q := by unfold ulpShift at hs ⊢; omega
  rw [this]; exact a

theorem ulpShift_mono {n m : Nat} (h : n ≤ m) (hm : m < 2 ^ 8192) : ulpShift n ≤ ulpShift m := by
  have := lg_mono h hm
  unfold ulpShift; omega

theorem roundMag_upper {n d : Nat} (_hd : 0 < d) (hq : n / d < 2 ^ 8192) :
    roundMag n d ≤ 2 ^ (53 + ulpShift (n / d)) := by
  have h1 := lt_pow_ulpShift hq
  have h2 : n / (d * 2 ^ ulpShift (n / d)) < 2 ^ 53 := by
    rw [← Nat.div_div_eq_div_mul, Nat.div_lt_iff_lt_mul (by positivity), ← pow_add]
    exact h1
  have h3 := rneDiv_le n (d * 2 ^ ulpShift (n / d))
  unfold roundMag
  calc rneDiv n (d * 2 ^ ulpShift (n / d)) * 2 ^ ulpShift (n / d)
      ≤ 2 ^ 53 * 2 ^ ulpShift (n / d) := Nat.mul_le_mul_right _ (by omega)
    _ = 2 ^ (53 + ulpShift (n / d)) := by rw [pow_add]

theorem roundMag_lower {n d : Nat} (_hd : 0 < d) (hq : n / d < 2 ^ 8192)
    (hs : 1 ≤ ulpShift (n / d)) : 2 ^ (52 + ulpShift (n / d)) ≤ roundMag n d := by
  have h1 := pow_ulpShift_le hq hs
  have h2 : 2 ^ 52 ≤ n / (d * 2 ^ ulpShift (n / d)) := by
    rw [← Nat.div_div_eq_div_mul, Nat.le_div_iff_mul_le (by positivity), ← pow_add]
    exact h1
  have h3 := rneDiv_ge n (d * 2 ^ ulpShift (n / d))
  unfold roundMag
  calc 2 ^ (52 + ulpShift (n / d)) = 2 ^ 52 * 2 ^ ulpShift (n / d) := by rw [pow_add]
    _ ≤ rneDiv n (d * 2 ^ ulpShift (n / d)) * 2 ^ ulpShift (n / d) :=
        Nat.mul_le_mul_right _ (by omega)

/-- Rounding is monotone. -/
theorem roundMag_mono {n m d : Nat} (hd : 0 < d) (h : n ≤ m) (hm : m / d < 2 ^ 8192) :
    roundMag n d ≤ roundMag m d := by
  have hq : n / d ≤ m / d := Nat.div_le_div_right h
  have hn : n / d < 2 ^ 8192 := lt_of_le_of_lt hq hm
  have hs := ulpShift_mono hq hm
  rcases Nat.lt_or_ge (ulpShift (n / d)) (ulpShift (m / d)) with hlt | hge
  · calc roundMag n d ≤ 2 ^ (53 + ulpShift (n / d)) := roundMag_upper hd hn
      _ ≤ 2 ^ (52 + ulpShift (m / d)) := Nat.pow_le_pow_right (by norm_num) (by omega)
      _ ≤ roundMag m d := roundMag_lower hd hm (by omega)
  · have he : ulpShift (n / d) = ulpShift (m / d) := le_antisymm hs hge
    unfold roundMag
    rw [he]
    exact Nat.mul_le_mul_right _ (rneDiv_mono _ h)

/-- The rounding error is at most half a unit in the last place: half a unit of
`2^-1074` on the subnormal grid, and at most `2^-53` of the value above it. -/
theorem roundMag_err {n d : Nat} (hd : 0 < d) (hq : n / d < 2 ^ 8192) :
    |(roundMag n d : ℚ) - (n : ℚ) / d| ≤ max (1 / 2) ((n : ℚ) / d / 2 ^ 53) := by
  have hdq : (0 : ℚ) < d := by exact_mod_cast hd
  set sh := ulpShift (n / d) with hsh
  have hD : 0 < d * 2 ^ sh := by positivity
  obtain ⟨e1, e2⟩ := rneDiv_err n (d * 2 ^ sh) hD
  have e1q : (2 : ℚ) * ((rneDiv n (d * 2 ^ sh) : ℚ) * (d * 2 ^ sh)) ≤ 2 * n + d * 2 ^ sh := by
    exact_mod_cast e1
  have e2q : (2 : ℚ) * n ≤ 2 * ((rneDiv n (d * 2 ^ sh) : ℚ) * (d * 2 ^ sh)) + d * 2 ^ sh := by
    exact_mod_cast e2
  have hR : (roundMag n d : ℚ) = (rneDiv n (d * 2 ^ sh) : ℚ) * 2 ^ sh := by
    unfold roundMag; rw [← hsh]; push_cast; ring
  have hp : (0 : ℚ) < 2 ^ sh := by positivity
  obtain ⟨x, hx⟩ : ∃ x : ℚ, x = (n : ℚ) / d := ⟨_, rfl⟩
  have hxn : (n : ℚ) = x * d := by rw [hx]; field_simp
  rw [← hx]
  rw [hxn] at e1q e2q
  have f1 : (2 : ℚ) * ((rneDiv n (d * 2 ^ sh) : ℚ) * 2 ^ sh) ≤ 2 * x + 2 ^ sh := by
    refine le_of_mul_le_mul_left ?_ hdq
    calc (d : ℚ) * (2 * ((rneDiv n (d * 2 ^ sh) : ℚ) * 2 ^ sh))
        = 2 * ((rneDiv n (d * 2 ^ sh) : ℚ) * (d * 2 ^ sh)) := by ring
      _ ≤ 2 * (x * d) + d * 2 ^ sh := e1q
      _ = (d : ℚ) * (2 * x + 2 ^ sh) := by ring
  have f2 : (2 : ℚ) * x ≤ 2 * ((rneDiv n (d * 2 ^ sh) : ℚ) * 2 ^ sh) + 2 ^ sh := by
    refine le_of_mul_le_mul_left ?_ hdq
    calc (d : ℚ) * (2 * x) = 2 * (x * d) := by ring
      _ ≤ 2 * ((rneDiv n (d * 2 ^ sh) : ℚ) * (d * 2 ^ sh)) + d * 2 ^ sh := e2q
      _ = (d : ℚ) * (2 * ((rneDiv n (d * 2 ^ sh) : ℚ) * 2 ^ sh) + 2 ^ sh) := by ring
  have habs : |(roundMag n d : ℚ) - x| ≤ 2 ^ sh / 2 := by
    rw [hR, abs_le]
    constructor <;> linarith
  rcases Nat.eq_zero_or_pos sh with h0 | h0
  · rw [h0] at habs
    exact le_trans habs (le_trans (by norm_num) (le_max_left _ _))
  · have h1 := pow_ulpShift_le hq h0
    have h2 : 2 ^ (52 + sh) * d ≤ n := by
      calc 2 ^ (52 + sh) * d ≤ n / d * d := Nat.mul_le_mul_right _ h1
        _ ≤ n := Nat.div_mul_le_self n d
    have h2q : (2 : ℚ) ^ (52 + sh) * d ≤ n := by exact_mod_cast h2
    rw [hxn] at h2q
    have h3 : (2 : ℚ) ^ (52 + sh) ≤ x := le_of_mul_le_mul_right h2q hdq
    refine le_trans habs (le_trans ?_ (le_max_right _ _))
    rw [pow_add] at h3
    have h4 : (2 : ℚ) ^ sh / 2 = 2 ^ 52 * 2 ^ sh / 2 ^ 53 := by
      rw [eq_div_iff (by positivity)]; ring
    rw [h4]
    exact div_le_div_of_nonneg_right h3 (by positivity)








theorem roundMag_zero (d : Nat) : roundMag 0 d = 0 := by
  simp [roundMag, rneDiv]

theorem key_round (neg : Bool) (n d : Nat) :
    (F64.round neg n d).key
      = if neg then -((min (roundMag n d) overflowMag : Nat) : Int)
        else ((min (roundMag n d) overflowMag : Nat) : Int) := by
  unfold F64.round
  split_ifs with h1 h2 h2
  · simp [F64.key, h2, min_eq_left (le_of_lt h1)]
  · simp [F64.key, h2, min_eq_left (le_of_lt h1)]
  · simp [F64.key, h2, min_eq_right (not_lt.mp h1)]
  · simp [F64.key, h2, min_eq_right (not_lt.mp h1)]

theorem ok_round (neg : Bool) (n d : Nat) : (F64.round neg n d).ok := by
  unfold F64.round
  split_ifs with h1
  · exact h1
  · trivial

theorem key_bounds {x : F64} (h : x.ok) :
    -(overflowMag : Int) ≤ x.key ∧ x.key ≤ (overflowMag : Int) := by
  cases x with
  | nan => exact absurd h (by simp [F64.ok])
  | inf s => cases s <;> simp [F64.key]
  | fin s m =>
    have hm : (m : Int) < (overflowMag : Int) := by exact_mod_cast h
    cases s <;> simp [F64.key] <;> omega

theorem roundKey_mono {d : Nat} (hd : 0 < d) {z w : Int} (h : z ≤ w)
    (hz : z.natAbs / d < 2 ^ 8192) (hw : w.natAbs / d < 2 ^ 8192) :
    roundKey d z ≤ roundKey d w := by
  unfold roundKey
  split_ifs with h1 h2 h2
  · have : w.natAbs ≤ z.natAbs := by omega
    have := roundMag_mono hd this hz
    have : min (roundMag w.natAbs d) overflowMag ≤ min (roundMag z.natAbs d) overflowMag :=
      min_le_min_right _ this
    omega
  · omega
  · omega
  · have : z.natAbs ≤ w.natAbs := by omega
    have := roundMag_mono hd this hw
    have : min (roundMag z.natAbs d) overflowMag ≤ min (roundMag w.natAbs d) overflowMag :=
      min_le_min_right _ this
    omega

theorem key_round_eq (neg : Bool) (n d : Nat) (z : Int) (hz : z.natAbs = n)
    (hs : neg = true → z ≤ 0) (hp : neg = false → 0 ≤ z) :
    (F64.round neg n d).key = roundKey d z := by
  rw [key_round]
  unfold roundKey
  cases neg with
  | true =>
    have := hs rfl
    rcases eq_or_lt_of_le this with h0 | h0
    · subst h0
      simp at hz
      subst hz
      simp [roundMag_zero]
    · simp [h0, hz]
  | false =>
    have := hp rfl
    simp [not_lt.mpr this, hz]

theorem key_add_fin (s t : Bool) (a b : Nat) :
    (F64.add (.fin s a) (.fin t b)).key = roundKey 1 ((F64.fin s a).key + (F64.fin t b).key) := by
  simp only [F64.add]
  split_ifs with h1 h2 h3
  · subst h1
    apply key_round_eq <;> cases s <;> simp [F64.key] <;> omega
  · apply key_round_eq <;> cases s <;> cases t <;> simp_all [F64.key] <;> omega
  · apply key_round_eq <;> cases s <;> cases t <;> simp_all [F64.key] <;> omega
  · have : a = b := by omega
    subst this
    cases s <;> cases t <;> simp_all [F64.key, roundKey, roundMag_zero]

theorem key_mul_fin (s : Bool) (a b : Nat) :
    (F64.mul (.fin s a) (.fin false b)).key = roundKey (2 ^ 1074) ((F64.fin s a).key * b) := by
  unfold F64.mul
  apply key_round_eq <;> cases s <;> simp [F64.key, Int.natAbs_mul] <;> positivity

theorem key_div_fin (s : Bool) (a b : Nat) (hb : b ≠ 0) :
    (F64.div (.fin s a) (.fin false b)).key = roundKey b ((F64.fin s a).key * 2 ^ 1074) := by
  simp only [F64.div, if_neg hb]
  apply key_round_eq <;> cases s <;> simp [F64.key, Int.natAbs_mul, Int.natAbs_pow]




theorem toRat_fin (s : Bool) (m : Nat) :
    (F64.fin s m).toRat = (if s then -1 else 1) * ((m : ℚ) / 2 ^ 1074) := by
  cases s <;> simp [F64.toRat]; ring

theorem round_approx (neg : Bool) (n d : Nat) (e : ℚ) (hd : 0 < d) (hq : n / d < 2 ^ 8192)
    (he : e = (if neg then -1 else 1) * ((n : ℚ) / d / 2 ^ 1074)) (hb : |e| ≤ 2 ^ 1023) :
    (F64.round neg n d).Approx e := by
  have hdq : (0 : ℚ) < d := by exact_mod_cast hd
  have hn0 : (0 : ℚ) ≤ n := Nat.cast_nonneg n
  have hx0 : (0 : ℚ) ≤ (n : ℚ) / d := div_nonneg hn0 hdq.le
  have hp : (0 : ℚ) < 2 ^ 1074 := pow_pos (by norm_num) _
  have hp53 : (0 : ℚ) < 2 ^ 53 := pow_pos (by norm_num) _
  have hsgn : |(if neg = true then (-1 : ℚ) else 1)| = 1 := by cases neg <;> simp
  have habs : |e| = (n : ℚ) / d / 2 ^ 1074 := by
    rw [he, abs_mul, hsgn, one_mul, abs_of_nonneg (div_nonneg hx0 hp.le)]
  have hx : (n : ℚ) / d ≤ 2 ^ 2097 := by
    rw [habs, div_le_iff₀ hp] at hb
    calc (n : ℚ) / d ≤ 2 ^ 1023 * 2 ^ 1074 := hb
      _ = 2 ^ 2097 := by rw [← pow_add]
  have herr := roundMag_err hd hq
  have hlt : roundMag n d < overflowMag := by
    have h1 : (roundMag n d : ℚ) ≤ (n : ℚ) / d + max (1 / 2) ((n : ℚ) / d / 2 ^ 53) := by
      have := (abs_le.mp herr).2; linarith
    have h2 : max (1 / 2) ((n : ℚ) / d / 2 ^ 53) ≤ 2 ^ 2044 := by
      apply max_le
      · norm_num
      · rw [div_le_iff₀ hp53]
        calc (n : ℚ) / d ≤ 2 ^ 2097 := hx
          _ = 2 ^ 2044 * 2 ^ 53 := by rw [← pow_add]
    have hc : ((overflowMag : ℕ) : ℚ) = 2 ^ 2098 := by
      unfold overflowMag; simp only [Nat.cast_pow, Nat.cast_ofNat]
    have h3 : (roundMag n d : ℚ) < (overflowMag : ℕ) := by
      rw [hc]
      calc (roundMag n d : ℚ) ≤ 2 ^ 2097 + 2 ^ 2044 := le_trans h1 (add_le_add hx h2)
        _ < 2 ^ 2098 := by norm_num
    exact Nat.cast_lt.mp h3
  refine ⟨neg, roundMag n d, ?_, hlt, ?_⟩
  · unfold F64.round; rw [if_pos hlt]
  · unfold F64.round; rw [if_pos hlt, toRat_fin, habs, he]
    rw [← mul_sub, abs_mul, hsgn, one_mul, ← sub_div, abs_div, abs_of_pos hp]
    rw [div_le_iff₀ hp]
    refine le_trans herr ?_
    rw [max_mul_of_nonneg _ _ hp.le]
    apply max_le_max
    · have h5 : (2 : ℚ) ^ 1075 = 2 * 2 ^ 1074 := pow_succ' 2 1074
      rw [one_div, one_div, h5, mul_inv, mul_assoc, inv_mul_cancel₀ hp.ne', mul_one]
    · apply le_of_eq; field_simp; ring





theorem overflowMag_add_lt : overflowMag + overflowMag < 2 ^ 8192 := by
  unfold overflowMag; norm_num

theorem sign_xor (s t : Bool) : (if xor s t then (-1 : ℚ) else 1)
    = (if s then -1 else 1) * (if t then -1 else 1) := by
  cases s <;> cases t <;> simp

theorem sign_div (s t : Bool) : (if s then (-1 : ℚ) else 1) / (if t then -1 else 1)
    = (if s then -1 else 1) * (if t then -1 else 1) := by
  cases s <;> cases t <;> simp

theorem overflowMag_lt : overflowMag * overflowMag < 2 ^ 8192 := by
  unfold overflowMag; norm_num

theorem add_approx (s t : Bool) (a b : Nat) (ha : a < overflowMag) (hb : b < overflowMag)
    (h : |(F64.fin s a).toRat + (F64.fin t b).toRat| ≤ 2 ^ 1023) :
    (F64.add (.fin s a) (.fin t b)).Approx ((F64.fin s a).toRat + (F64.fin t b).toRat) := by
  have hr : ∀ n : Nat, n ≤ a + b → n / 1 < 2 ^ 8192 := by
    intro n hn
    rw [Nat.div_one]
    exact lt_of_le_of_lt hn (lt_trans (Nat.add_lt_add ha hb) overflowMag_add_lt)
  simp only [F64.add]
  split_ifs with h1 h2 h3
  · subst h1
    refine round_approx _ _ 1 _ Nat.one_pos (hr _ le_rfl) ?_ h
    rw [toRat_fin, toRat_fin]; push_cast; ring
  · refine round_approx _ _ 1 _ Nat.one_pos (hr _ (by omega)) ?_ h
    rw [toRat_fin, toRat_fin, Nat.cast_sub h2.le]
    cases s <;> cases t <;> simp at h1 ⊢ <;> ring
  · refine round_approx _ _ 1 _ Nat.one_pos (hr _ (by omega)) ?_ h
    rw [toRat_fin, toRat_fin, Nat.cast_sub h3.le]
    cases s <;> cases t <;> simp at h1 ⊢ <;> ring
  · have hab : a = b := by omega
    subst hab
    refine ⟨false, 0, rfl, by omega, ?_⟩
    have : (F64.fin s a).toRat + (F64.fin t a).toRat = 0 := by
      rw [toRat_fin, toRat_fin]
      cases s <;> cases t <;> simp at h1 ⊢
    rw [this]
    simp [F64.toRat]

theorem mul_approx (s t : Bool) (a b : Nat) (ha : a < overflowMag) (hb : b < overflowMag)
    (h : |(F64.fin s a).toRat * (F64.fin t b).toRat| ≤ 2 ^ 1023) :
    (F64.mul (.fin s a) (.fin t b)).Approx ((F64.fin s a).toRat * (F64.fin t b).toRat) := by
  have hOO := overflowMag_lt
  simp only [F64.mul]
  refine round_approx _ _ _ _ (pow_pos (by norm_num) _) ?_ ?_ h
  · refine lt_of_le_of_lt (Nat.div_le_self _ _) (lt_of_le_of_lt ?_ hOO)
    exact Nat.mul_le_mul ha.le hb.le
  · rw [toRat_fin, toRat_fin]
    simp only [Nat.cast_mul, Nat.cast_pow, Nat.cast_ofNat]
    have hp : (2 : ℚ) ^ 1074 ≠ 0 := pow_ne_zero _ (by norm_num)
    rw [sign_xor]
    generalize (2 : ℚ) ^ 1074 = P at hp ⊢
    field_simp

theorem div_approx (s t : Bool) (a b : Nat) (ha : a < overflowMag) (hb0 : b ≠ 0)
    (h : |(F64.fin s a).toRat / (F64.fin t b).toRat| ≤ 2 ^ 1023) :
    (F64.div (.fin s a) (.fin t b)).Approx ((F64.fin s a).toRat / (F64.fin t b).toRat) := by
  have hOO := overflowMag_lt
  simp only [F64.div, if_neg hb0]
  refine round_approx _ _ _ _ (Nat.pos_of_ne_zero hb0) ?_ ?_ h
  · refine lt_of_le_of_lt (Nat.div_le_self _ _) (lt_of_le_of_lt ?_ hOO)
    refine Nat.mul_le_mul ha.le ?_
    unfold overflowMag
    exact Nat.pow_le_pow_right (by norm_num) (by norm_num)
  · rw [toRat_fin, toRat_fin]
    simp only [Nat.cast_mul, Nat.cast_pow, Nat.cast_ofNat]
    have hp : (2 : ℚ) ^ 1074 ≠ 0 := pow_ne_zero _ (by norm_num)
    have hbq : (b : ℚ) ≠ 0 := by exact_mod_cast hb0
    rw [sign_xor, mul_div_mul_comm, sign_div]
    generalize (2 : ℚ) ^ 1074 = P at hp ⊢
    generalize (if s = true then (-1 : ℚ) else 1) = σ
    generalize (if t = true then (-1 : ℚ) else 1) = τ
    field_simp
    ring




theorem const_32 : (32 : F64) = .fin false (2 ^ 1079) := by decide
theorem const_5 : (5 : F64) = .fin false (5 * 2 ^ 1074) := by decide
theorem const_9 : (9 : F64) = .fin false (9 * 2 ^ 1074) := by decide

theorem toRat_scaled (k : Nat) : (F64.fin false (k * 2 ^ 1074)).toRat = k := by
  have hp : (2 : ℚ) ^ 1074 ≠ 0 := pow_ne_zero _ (by norm_num)
  simp only [F64.toRat, Nat.cast_mul, Nat.cast_pow, Nat.cast_ofNat]
  simp [hp]

theorem toRat_32 : (F64.fin false (2 ^ 1079)).toRat = 32 := by
  have : (2 : ℕ) ^ 1079 = 32 * 2 ^ 1074 := by norm_num
  rw [this, toRat_scaled]; norm_num

theorem toRat_neg_32 : (F64.fin true (2 ^ 1079)).toRat = -32 := by
  have h := toRat_32
  simp only [F64.toRat] at h ⊢
  simp only [Bool.false_eq_true, if_false, if_true] at h ⊢
  rw [neg_div, h]

theorem small_lt_overflowMag (k : Nat) (hk : k ≤ 32) : k * 2 ^ 1074 < overflowMag := by
  unfold overflowMag
  calc k * 2 ^ 1074 ≤ 32 * 2 ^ 1074 := Nat.mul_le_mul_right _ hk
    _ < 2 ^ 2098 := by norm_num

theorem approx_elim {r : F64} {e : ℚ} (h : r.Approx e) :
    ∃ s m, r = .fin s m ∧ m < overflowMag ∧ |r.toRat - e| ≤ 1 / 2 ^ 1075 + |e| / 2 ^ 53 := by
  obtain ⟨s, m, h1, h2, h3⟩ := h
  refine ⟨s, m, h1, h2, le_trans h3 (max_le ?_ ?_)⟩
  · exact le_add_of_nonneg_right (div_nonneg (abs_nonneg _) (pow_pos (by norm_num) _).le)
  · exact le_add_of_nonneg_left (div_nonneg zero_le_one (pow_pos (by norm_num) _).le)

theorem sub32_approx (s : Bool) (a : Nat) (ha : a < overflowMag)
    (h : |(F64.fin s a).toRat - 32| ≤ 2 ^ 1023) :
    (F64.fin s a - 32 : F64).Approx ((F64.fin s a).toRat - 32) := by
  show (F64.add (F64.fin s a) (F64.neg (32 : F64))).Approx _
  rw [const_32]
  have hc : (2 : ℕ) ^ 1079 < overflowMag := by unfold overflowMag; norm_num
  have := add_approx s true a (2 ^ 1079) ha hc
  rw [toRat_neg_32, ← sub_eq_add_neg] at this
  exact this h

theorem add32_approx (s : Bool) (a : Nat) (ha : a < overflowMag)
    (h : |(F64.fin s a).toRat + 32| ≤ 2 ^ 1023) :
    (F64.fin s a + 32 : F64).Approx ((F64.fin s a).toRat + 32) := by
  show (F64.add (F64.fin s a) (32 : F64)).Approx _
  rw [const_32]
  have hc : (2 : ℕ) ^ 1079 < overflowMag := by unfold overflowMag; norm_num
  have := add_approx s false a (2 ^ 1079) ha hc
  rw [toRat_32] at this
  exact this h

theorem mul5_approx (s : Bool) (a : Nat) (ha : a < overflowMag)
    (h : |(F64.fin s a).toRat * 5| ≤ 2 ^ 1023) :
    (F64.fin s a * 5 : F64).Approx ((F64.fin s a).toRat * 5) := by
  show (F64.mul (F64.fin s a) (5 : F64)).Approx _
  rw [const_5]
  have := mul_approx s false a (5 * 2 ^ 1074) ha (small_lt_overflowMag 5 (by norm_num))
  rw [toRat_scaled] at this
  exact this h

theorem mul9_approx (s : Bool) (a : Nat) (ha : a < overflowMag)
    (h : |(F64.fin s a).toRat * 9| ≤ 2 ^ 1023) :
    (F64.fin s a * 9 : F64).Approx ((F64.fin s a).toRat * 9) := by
  show (F64.mul (F64.fin s a) (9 : F64)).Approx _
  rw [const_9]
  have := mul_approx s false a (9 * 2 ^ 1074) ha (small_lt_overflowMag 9 (by norm_num))
  rw [toRat_scaled] at this
  exact this h

theorem div9_approx (s : Bool) (a : Nat) (ha : a < overflowMag)
    (h : |(F64.fin s a).toRat / 9| ≤ 2 ^ 1023) :
    (F64.fin s a / 9 : F64).Approx ((F64.fin s a).toRat / 9) := by
  show (F64.div (F64.fin s a) (9 : F64)).Approx _
  rw [const_9]
  have := div_approx s false a (9 * 2 ^ 1074) ha (by positivity)
  rw [toRat_scaled] at this
  exact this h

theorem div5_approx (s : Bool) (a : Nat) (ha : a < overflowMag)
    (h : |(F64.fin s a).toRat / 5| ≤ 2 ^ 1023) :
    (F64.fin s a / 5 : F64).Approx ((F64.fin s a).toRat / 5) := by
  show (F64.div (F64.fin s a) (5 : F64)).Approx _
  rw [const_5]
  have := div_approx s false a (5 * 2 ^ 1074) ha (by positivity)
  rw [toRat_scaled] at this
  exact this h



/-- Error analysis of `((X - 32) * 5 / 9) * 9 / 5 + 32` evaluated with one rounding
per operation, each of relative error `2^-53` up to an absolute error `η`. -/
theorem f2c_pure (B X η : ℚ) (hB : 64 ≤ B) (hX : |X| ≤ B) (hη0 : 0 ≤ η) (hη : η ≤ 1 / 2 ^ 60) :
    |X - 32| ≤ 16 * B ∧ ∀ S, |S - (X - 32)| ≤ η + |X - 32| / 2 ^ 53 →
    |S * 5| ≤ 16 * B ∧ ∀ P, |P - S * 5| ≤ η + |S * 5| / 2 ^ 53 →
    |P / 9| ≤ 16 * B ∧ ∀ C, |C - P / 9| ≤ η + |P / 9| / 2 ^ 53 →
    |C - (X - 32) * 5 / 9| ≤ |(X - 32) * 5 / 9| / 2 ^ 51 + 2 * η ∧
    |C * 9| ≤ 16 * B ∧ ∀ M, |M - C * 9| ≤ η + |C * 9| / 2 ^ 53 →
    |M / 5| ≤ 16 * B ∧ ∀ Q, |Q - M / 5| ≤ η + |M / 5| / 2 ^ 53 →
    |Q + 32| ≤ 16 * B ∧ ∀ R, |R - (Q + 32)| ≤ η + |Q + 32| / 2 ^ 53 →
    |R - X| ≤ (|X| + 32) / 2 ^ 50 := by
  obtain ⟨hXl, hXu⟩ := abs_le.mp hX
  have aX := abs_nonneg X
  have aE := abs_nonneg (X - 32)
  have hE : |X - 32| ≤ |X| + 32 := by
    have := le_abs_self X; have := neg_abs_le X
    exact abs_le.mpr ⟨by linarith, by linarith⟩
  have lE := le_abs_self (X - 32)
  have nE := neg_abs_le (X - 32)
  have e0 : |(X - 32) * 5 / 9| = |X - 32| * 5 / 9 := by
    rw [abs_div, abs_mul]; norm_num
  refine ⟨by linarith, fun S h1 => ?_⟩
  obtain ⟨h1l, h1u⟩ := abs_le.mp h1
  have hS : |S| ≤ η + |X - 32| / 2 ^ 53 + |X - 32| :=
    abs_le.mpr ⟨by linarith, by linarith⟩
  have e1 : |S * 5| = |S| * 5 := by rw [abs_mul]; norm_num
  rw [e1]
  refine ⟨by norm_num at *; linarith, fun P h2 => ?_⟩
  obtain ⟨h2l, h2u⟩ := abs_le.mp h2
  have lS := le_abs_self S
  have nS := neg_abs_le S
  have hP : |P| ≤ η + |S| * 5 / 2 ^ 53 + |S| * 5 :=
    abs_le.mpr ⟨by linarith, by linarith⟩
  have e2 : |P / 9| = |P| / 9 := by rw [abs_div]; norm_num
  rw [e2]
  refine ⟨by norm_num at *; linarith, fun C h3 => ?_⟩
  obtain ⟨h3l, h3u⟩ := abs_le.mp h3
  have lP := le_abs_self P
  have nP := neg_abs_le P
  have hC : |C| ≤ η + |P| / 9 / 2 ^ 53 + |P| / 9 :=
    abs_le.mpr ⟨by linarith, by linarith⟩
  have e3 : |C * 9| = |C| * 9 := by rw [abs_mul]; norm_num
  rw [e0, e3]
  refine ⟨?_, by norm_num at *; linarith, fun M h4 => ?_⟩
  · norm_num at *
    exact abs_le.mpr ⟨by linarith, by linarith⟩
  obtain ⟨h4l, h4u⟩ := abs_le.mp h4
  have lC := le_abs_self C
  have nC := neg_abs_le C
  have hM : |M| ≤ η + |C| * 9 / 2 ^ 53 + |C| * 9 :=
    abs_le.mpr ⟨by linarith, by linarith⟩
  have e4 : |M / 5| = |M| / 5 := by rw [abs_div]; norm_num
  rw [e4]
  refine ⟨by norm_num at *; linarith, fun Q h5 => ?_⟩
  obtain ⟨h5l, h5u⟩ := abs_le.mp h5
  have lM := le_abs_self M
  have nM := neg_abs_le M
  have hQ : |Q + 32| ≤ η + |M| / 5 / 2 ^ 53 + |M| / 5 + 32 :=
    abs_le.mpr ⟨by linarith, by linarith⟩
  refine ⟨by norm_num at *; linarith, fun R h6 => ?_⟩
  obtain ⟨h6l, h6u⟩ := abs_le.mp h6
  have lQ := le_abs_self (Q + 32)
  have nQ := neg_abs_le (Q + 32)
  norm_num at *
  have aX := abs_nonneg X
  have aE := abs_nonneg (X - 32)
  exact abs_le.mpr ⟨by linarith, by linarith⟩



/-- Error analysis of `((X * 9 / 5 + 32) - 32) * 5 / 9` evaluated with one rounding
per operation, each of relative error `2^-53` up to an absolute error `η`. -/
theorem c2f_pure (B X η : ℚ) (hB : 1024 ≤ B) (hX : |X| ≤ B) (_hη0 : 0 ≤ η) (hη : η ≤ 1 / 2 ^ 60) :
    |X * 9| ≤ 16 * B ∧ ∀ M, |M - X * 9| ≤ η + |X * 9| / 2 ^ 53 →
    |M / 5| ≤ 16 * B ∧ ∀ Q, |Q - M / 5| ≤ η + |M / 5| / 2 ^ 53 →
    |Q + 32| ≤ 16 * B ∧ ∀ R, |R - (Q + 32)| ≤ η + |Q + 32| / 2 ^ 53 →
    |R - (X * 9 / 5 + 32)| ≤ (|X * 9 / 5| + 32) / 2 ^ 51 ∧
    |R - 32| ≤ 16 * B ∧ ∀ S, |S - (R - 32)| ≤ η + |R - 32| / 2 ^ 53 →
    |S * 5| ≤ 16 * B ∧ ∀ P, |P - S * 5| ≤ η + |S * 5| / 2 ^ 53 →
    |P / 9| ≤ 16 * B ∧ ∀ C, |C - P / 9| ≤ η + |P / 9| / 2 ^ 53 →
    |C - X| ≤ (|X| + 32) / 2 ^ 50 := by
  obtain ⟨hXl, hXu⟩ := abs_le.mp hX
  have lX := le_abs_self X
  have nX := neg_abs_le X
  have e0 : |X * 9| = |X| * 9 := by rw [abs_mul]; norm_num
  have e0' : |X * 9 / 5| = |X| * 9 / 5 := by rw [abs_div, abs_mul]; norm_num
  rw [e0, e0']
  refine ⟨by linarith, fun M h1 => ?_⟩
  obtain ⟨h1l, h1u⟩ := abs_le.mp h1
  have hM : |M| ≤ η + |X| * 9 / 2 ^ 53 + |X| * 9 :=
    abs_le.mpr ⟨by linarith, by linarith⟩
  have e1 : |M / 5| = |M| / 5 := by rw [abs_div]; norm_num
  rw [e1]
  refine ⟨by norm_num at *; linarith, fun Q h2 => ?_⟩
  obtain ⟨h2l, h2u⟩ := abs_le.mp h2
  have lM := le_abs_self M
  have nM := neg_abs_le M
  have hQ : |Q + 32| ≤ η + |M| / 5 / 2 ^ 53 + |M| / 5 + 32 :=
    abs_le.mpr ⟨by linarith, by linarith⟩
  refine ⟨by norm_num at *; linarith, fun R h3 => ?_⟩
  obtain ⟨h3l, h3u⟩ := abs_le.mp h3
  have lQ := le_abs_self (Q + 32)
  have nQ := neg_abs_le (Q + 32)
  have hR : |R - 32| ≤ η + |Q + 32| / 2 ^ 53 + |Q + 32| + 32 :=
    abs_le.mpr ⟨by linarith, by linarith⟩
  refine ⟨?_, by norm_num at *; linarith, fun S h4 => ?_⟩
  · norm_num at *
    have aX := abs_nonneg X
    exact abs_le.mpr ⟨by linarith, by linarith⟩
  obtain ⟨h4l, h4u⟩ := abs_le.mp h4
  have lR := le_abs_self (R - 32)
  have nR := neg_abs_le (R - 32)
  have hS : |S| ≤ η + |R - 32| / 2 ^ 53 + |R - 32| :=
    abs_le.mpr ⟨by linarith, by linarith⟩
  have e4 : |S * 5| = |S| * 5 := by rw [abs_mul]; norm_num
  rw [e4]
  refine ⟨by norm_num at *; linarith, fun P h5 => ?_⟩
  obtain ⟨h5l, h5u⟩ := abs_le.mp h5
  have lS := le_abs_self S
  have nS := neg_abs_le S
  have hP : |P| ≤ η + |S| * 5 / 2 ^ 53 + |S| * 5 :=
    abs_le.mpr ⟨by linarith, by linarith⟩
  have e5 : |P / 9| = |P| / 9 := by rw [abs_div]; norm_num
  rw [e5]
  refine ⟨by norm_num at *; linarith, fun C h6 => ?_⟩
  obtain ⟨h6l, h6u⟩ := abs_le.mp h6
  have lP := le_abs_self P
  have nP := neg_abs_le P
  norm_num at *
  have aX := abs_nonneg X
  exact abs_le.mpr ⟨by linarith, by linarith⟩




theorem fin_of_valid {x : F64} (hv : x.valid = true) (hf : x.isFinite = true) :
    ∃ s a, x = .fin s a ∧ a < overflowMag := by
  cases x with
  | nan => simp [F64.isFinite] at hf
  | inf s => simp [F64.isFinite] at hf
  | fin s a =>
    refine ⟨s, a, rfl, ?_⟩
    simp only [F64.valid, Bool.and_eq_true, decide_eq_true_eq] at hv
    exact hv.1

theorem eta_facts : (0 : ℚ) ≤ 1 / 2 ^ 1075 ∧ (1 : ℚ) / 2 ^ 1075 ≤ 1 / 2 ^ 60
    ∧ (2 : ℚ) * (1 / 2 ^ 1075) = 1 / 2 ^ 1074 ∧ (16 : ℚ) * 2 ^ 1019 = 2 ^ 1023
    ∧ (1024 : ℚ) ≤ 2 ^ 1019 := by
  refine ⟨by norm_num, by norm_num, by norm_num, by norm_num, by norm_num⟩

/-- Accuracy of the binary64 evaluation of `(x - 32) * 5 / 9` and of the way back. -/
theorem f2c_float (s : Bool) (a : Nat) (ha : a < overflowMag)
    (hX : |(F64.fin s a).toRat| ≤ 2 ^ 1019) :
    ∃ c r : F64, (F64.fin s a - 32) * 5 / 9 = c ∧ c * 9 / 5 + 32 = r ∧
      c.isFinite = true ∧ r.isFinite = true ∧
      |c.toRat - ((F64.fin s a).toRat - 32) * 5 / 9|
        ≤ |((F64.fin s a).toRat - 32) * 5 / 9| / 2 ^ 51 + 1 / 2 ^ 1074 ∧
      |r.toRat - (F64.fin s a).toRat| ≤ (|(F64.fin s a).toRat| + 32) / 2 ^ 50 := by
  obtain ⟨hη0, hη, h2η, h16, hB⟩ := eta_facts
  obtain ⟨b1, k1⟩ := f2c_pure (2 ^ 1019) _ _ (le_trans (by norm_num) hB) hX hη0 hη
  rw [h16] at b1
  obtain ⟨s1, m1, e1, hm1, h1⟩ := approx_elim (sub32_approx s a ha b1)
  rw [e1] at h1 ⊢
  obtain ⟨b2, k2⟩ := k1 _ h1
  rw [h16] at b2
  obtain ⟨s2, m2, e2, hm2, h2⟩ := approx_elim (mul5_approx s1 m1 hm1 b2)
  rw [e2] at h2 ⊢
  obtain ⟨b3, k3⟩ := k2 _ h2
  rw [h16] at b3
  obtain ⟨s3, m3, e3, hm3, h3⟩ := approx_elim (div9_approx s2 m2 hm2 b3)
  rw [e3] at h3 ⊢
  obtain ⟨acc, b4, k4⟩ := k3 _ h3
  rw [h16] at b4
  rw [h2η] at acc
  obtain ⟨s4, m4, e4, hm4, h4⟩ := approx_elim (mul9_approx s3 m3 hm3 b4)
  obtain ⟨b5, k5⟩ := k4 _ (by rw [e4] at h4; exact h4)
  rw [h16] at b5
  obtain ⟨s5, m5, e5, hm5, h5⟩ := approx_elim (div5_approx s4 m4 hm4 b5)
  obtain ⟨b6, k6⟩ := k5 _ (by rw [e5] at h5; exact h5)
  rw [h16] at b6
  obtain ⟨s6, m6, e6, hm6, h6⟩ := approx_elim (add32_approx s5 m5 hm5 b6)
  have fin := k6 _ (by rw [e6] at h6; exact h6)
  refine ⟨F64.fin s3 m3, F64.fin s6 m6, rfl, ?_, rfl, rfl, acc, fin⟩
  rw [e4, e5, e6]

/-- Accuracy of the binary64 evaluation of `x * 9 / 5 + 32` and of the way back. -/
theorem c2f_float (s : Bool) (a : Nat) (ha : a < overflowMag)
    (hX : |(F64.fin s a).toRat| ≤ 2 ^ 1019) :
    ∃ r c : F64, F64.fin s a * 9 / 5 + 32 = r ∧ (r - 32) * 5 / 9 = c ∧
      r.isFinite = true ∧ c.isFinite = true ∧
      |r.toRat - ((F64.fin s a).toRat * 9 / 5 + 32)|
        ≤ (|(F64.fin s a).toRat * 9 / 5| + 32) / 2 ^ 51 ∧
      |c.toRat - (F64.fin s a).toRat| ≤ (|(F64.fin s a).toRat| + 32) / 2 ^ 50 := by
  obtain ⟨hη0, hη, _, h16, hB⟩ := eta_facts
  obtain ⟨b1, k1⟩ := c2f_pure (2 ^ 1019) _ _ hB hX hη0 hη
  rw [h16] at b1
  obtain ⟨s1, m1, e1, hm1, h1⟩ := approx_elim (mul9_approx s a ha b1)
  rw [e1] at h1 ⊢
  obtain ⟨b2, k2⟩ := k1 _ h1
  rw [h16] at b2
  obtain ⟨s2, m2, e2, hm2, h2⟩ := approx_elim (div5_approx s1 m1 hm1 b2)
  rw [e2] at h2 ⊢
  obtain ⟨b3, k3⟩ := k2 _ h2
  rw [h16] at b3
  obtain ⟨s3, m3, e3, hm3, h3⟩ := approx_elim (add32_approx s2 m2 hm2 b3)
  rw [e3] at h3 ⊢
  obtain ⟨acc, b4, k4⟩ := k3 _ h3
  rw [h16] at b4
  obtain ⟨s4, m4, e4, hm4, h4⟩ := approx_elim (sub32_approx s3 m3 hm3 b4)
  obtain ⟨b5, k5⟩ := k4 _ (by rw [e4] at h4; exact h4)
  rw [h16] at b5
  obtain ⟨s5, m5, e5, hm5, h5⟩ := approx_elim (mul5_approx s4 m4 hm4 b5)
  obtain ⟨b6, k6⟩ := k5 _ (by rw [e5] at h5; exact h5)
  rw [h16] at b6
  obtain ⟨s6, m6, e6, hm6, h6⟩ := approx_elim (div9_approx s5 m5 hm5 b6)
  have fin := k6 _ (by rw [e6] at h6; exact h6)
  refine ⟨F64.fin s3 m3, F64.fin s6 m6, rfl, ?_, rfl, rfl, acc, fin⟩
  rw [e4, e5, e6]



theorem ok_of_valid {x : F64} (hv : x.valid = true) (hn : x.isNaN = false) : x.ok := by
  cases x with
  | nan => simp [F64.isNaN] at hn
  | inf s => trivial
  | fin s a =>
    simp only [F64.valid, Bool.and_eq_true, decide_eq_true_eq] at hv
    exact hv.1

theorem isNaN_of_ok {x : F64} (h : x.ok) : x.isNaN = false := by
  cases x with
  | nan => exact absurd h (by simp [F64.ok])
  | inf s => rfl
  | fin s a => rfl

theorem key_fin_lt (s : Bool) (a : Nat) (ha : a < overflowMag) :
    -(overflowMag : Int) < (F64.fin s a).key ∧ (F64.fin s a).key < (overflowMag : Int) := by
  cases s <;> simp [F64.key] <;> omega

theorem key_inf_true : (F64.inf true).key = -(overflowMag : Int) := rfl

theorem key_inf_false : (F64.inf false).key = (overflowMag : Int) := rfl

/-- A map that fixes the infinities and is monotone on the finite values is
monotone on all comparable values. -/
theorem mono_lift (f : F64 → F64) (h_inf : ∀ s, f (.inf s) = .inf s)
    (h_ok : ∀ s a, a < overflowMag → (f (.fin s a)).ok)
    (h_mono : ∀ s a t b, a < overflowMag → b < overflowMag →
      (F64.fin s a).key ≤ (F64.fin t b).key → (f (.fin s a)).key ≤ (f (.fin t b)).key)
    {x y : F64} (hx : x.ok) (hy : y.ok) (h : x.key ≤ y.key) :
    (f x).ok ∧ (f y).ok ∧ (f x).key ≤ (f y).key := by
  have okf : ∀ z : F64, z.ok → (f z).ok := by
    intro z hz
    cases z with
    | nan => exact absurd hz (by simp [F64.ok])
    | inf s => rw [h_inf]; trivial
    | fin s a => exact h_ok s a hz
  refine ⟨okf x hx, okf y hy, ?_⟩
  cases x with
  | nan => exact absurd hx (by simp [F64.ok])
  | inf s =>
    cases s with
    | true =>
      rw [h_inf, key_inf_true]
      exact (key_bounds (okf y hy)).1
    | false =>
      cases y with
      | nan => exact absurd hy (by simp [F64.ok])
      | inf t =>
        cases t with
        | true =>
          have hO : (0 : Int) < overflowMag := by unfold overflowMag; positivity
          rw [key_inf_true, key_inf_false] at h; omega
        | false => exact le_refl _
      | fin t b =>
        have := (key_fin_lt t b hy).2
        rw [key_inf_false] at h
        omega
  | fin s a =>
    cases y with
    | nan => exact absurd hy (by simp [F64.ok])
    | inf t =>
      cases t with
      | true =>
        have := (key_fin_lt s a hx).1
        rw [key_inf_true] at h
        omega
      | false =>
        rw [h_inf, key_inf_false]
        exact (key_bounds (okf _ hx)).2
    | fin t b => exact h_mono s a t b hx hy h

theorem ok_add_fin (s t : Bool) (a b : Nat) : (F64.add (.fin s a) (.fin t b)).ok := by
  simp only [F64.add]
  split_ifs
  · exact ok_round _ _ _
  · exact ok_round _ _ _
  · exact ok_round _ _ _
  · show 0 < overflowMag
    unfold overflowMag; positivity

theorem natAbs_key_fin (s : Bool) (a : Nat) : (F64.fin s a).key.natAbs = a := by
  cases s <;> simp [F64.key]

theorem add_const_mono (t : Bool) (c : Nat) (hc : c < overflowMag) {x y : F64}
    (hx : x.ok) (hy : y.ok) (h : x.key ≤ y.key) :
    (F64.add x (.fin t c)).ok ∧ (F64.add y (.fin t c)).ok
      ∧ (F64.add x (.fin t c)).key ≤ (F64.add y (.fin t c)).key := by
  refine mono_lift (fun z => F64.add z (.fin t c)) (fun s => rfl)
    (fun s a _ => ok_add_fin s t a c) ?_ hx hy h
  intro s a u b ha hb hk
  simp only [key_add_fin]
  have hr : ∀ (v : Bool) (n : Nat), n < overflowMag →
      ((F64.fin v n).key + (F64.fin t c).key).natAbs / 1 < 2 ^ 8192 := by
    intro v n hn
    rw [Nat.div_one]
    have h1 := natAbs_key_fin v n
    have h2 := natAbs_key_fin t c
    have h3 := Int.natAbs_add_le (F64.fin v n).key (F64.fin t c).key
    have h4 := overflowMag_add_lt
    omega
  exact roundKey_mono Nat.one_pos (by omega) (hr s a ha) (hr u b hb)

theorem mul_const_mono (c : Nat) (hc0 : c ≠ 0) (hc : c < overflowMag) {x y : F64}
    (hx : x.ok) (hy : y.ok) (h : x.key ≤ y.key) :
    (F64.mul x (.fin false c)).ok ∧ (F64.mul y (.fin false c)).ok
      ∧ (F64.mul x (.fin false c)).key ≤ (F64.mul y (.fin false c)).key := by
  refine mono_lift (fun z => F64.mul z (.fin false c)) (fun s => ?_)
    (fun s a _ => ok_round _ _ _) ?_ hx hy h
  · simp [F64.mul, hc0]
  intro s a u b ha hb hk
  simp only [key_mul_fin]
  have hr : ∀ (v : Bool) (n : Nat), n < overflowMag →
      ((F64.fin v n).key * (c : Int)).natAbs / 2 ^ 1074 < 2 ^ 8192 := by
    intro v n hn
    rw [Int.natAbs_mul, natAbs_key_fin, Int.natAbs_ofNat]
    exact lt_of_le_of_lt (Nat.div_le_self _ _)
      (lt_of_le_of_lt (Nat.mul_le_mul hn.le hc.le) overflowMag_lt)
  exact roundKey_mono (pow_pos (by norm_num) _)
    (Int.mul_le_mul_of_nonneg_right hk (Int.ofNat_nonneg c)) (hr s a ha) (hr u b hb)

theorem div_const_mono (c : Nat) (hc0 : c ≠ 0) {x y : F64}
    (hx : x.ok) (hy : y.ok) (h : x.key ≤ y.key) :
    (F64.div x (.fin false c)).ok ∧ (F64.div y (.fin false c)).ok
      ∧ (F64.div x (.fin false c)).key ≤ (F64.div y (.fin false c)).key := by
  refine mono_lift (fun z => F64.div z (.fin false c)) (fun s => ?_)
    (fun s a _ => ?_) ?_ hx hy h
  · simp [F64.div]
  · simp only [F64.div, if_neg hc0]; exact ok_round _ _ _
  intro s a u b ha hb hk
  simp only [key_div_fin _ _ _ hc0]
  have hp : (2 : ℕ) ^ 1074 ≤ overflowMag := by
    unfold overflowMag; exact Nat.pow_le_pow_right (by norm_num) (by norm_num)
  have hr : ∀ (v : Bool) (n : Nat), n < overflowMag →
      ((F64.fin v n).key * (2 : Int) ^ 1074).natAbs / c < 2 ^ 8192 := by
    intro v n hn
    rw [Int.natAbs_mul, natAbs_key_fin, Int.natAbs_pow]
    exact lt_of_le_of_lt (Nat.div_le_self _ _)
      (lt_of_le_of_lt (Nat.mul_le_mul hn.le hp) overflowMag_lt)
  exact roundKey_mono (Nat.pos_of_ne_zero hc0)
    (Int.mul_le_mul_of_nonneg_right hk (pow_pos (by norm_num) _).le) (hr s a ha) (hr u b hb)

/-! ## Well-formedness is preserved; checks of the model -/

theorem valid_of_bounds (s : Bool) (m k : Nat) (h1 : 2 ^ (52 + k) ≤ m) (h2 : m ≤ 2 ^ (53 + k))
    (h3 : 2 ^ k ∣ m) (h4 : m < overflowMag) : (F64.fin s m).valid = true := by
  have hO : overflowMag < 2 ^ 8192 := by unfold overflowMag; norm_num
  simp only [F64.valid, Bool.and_eq_true, decide_eq_true_eq]
  refine ⟨h4, ?_⟩
  rcases Nat.lt_or_ge m (2 ^ (53 + k)) with h | h
  · have hl : lg m = 52 + k := lg_eq_of_bounds h1 (by rw [show 52 + k + 1 = 53 + k by omega]; exact h)
      (lt_trans h4 hO)
    have : ulpShift m = k := by unfold ulpShift; omega
    rw [this]; exact Nat.mod_eq_zero_of_dvd h3
  · have hm : m = 2 ^ (53 + k) := le_antisymm h2 h
    have hl : lg m = 53 + k := lg_eq_of_bounds (by rw [hm])
      (by rw [hm]; exact Nat.pow_lt_pow_right (by norm_num) (by omega)) (lt_trans h4 hO)
    have : ulpShift m = k + 1 := by unfold ulpShift; omega
    rw [this, hm]
    exact Nat.mod_eq_zero_of_dvd (Nat.pow_dvd_pow 2 (by omega))

theorem valid_of_small (s : Bool) (m : Nat) (h : m < 2 ^ 53) : (F64.fin s m).valid = true := by
  have hO : (2 : ℕ) ^ 53 < overflowMag := by unfold overflowMag; norm_num
  simp only [F64.valid, Bool.and_eq_true, decide_eq_true_eq]
  refine ⟨lt_trans h hO, ?_⟩
  have : ulpShift m = 0 := by
    unfold ulpShift
    rcases Nat.eq_zero_or_pos m with h0 | h0
    · subst h0; simp [lg_zero]
    · obtain ⟨a, _⟩ := lg_spec h0 (lt_trans h (by norm_num))
      have : lg m < 53 := (Nat.pow_lt_pow_iff_right (by norm_num)).mp (lt_of_le_of_lt a h)
      omega
  rw [this, pow_zero, Nat.mod_one]

/-- Rounding produces well-formed binary64 values. -/
theorem round_valid (neg : Bool) (n d : Nat) (hd : 0 < d) (hq : n / d < 2 ^ 8192) :
    (F64.round neg n d).valid = true := by
  unfold F64.round
  split_ifs with h
  · rcases Nat.eq_zero_or_pos (ulpShift (n / d)) with h0 | h0
    · have hu := roundMag_upper hd hq
      rw [h0] at hu
      rcases Nat.lt_or_ge (roundMag n d) (2 ^ 53) with hl | hl
      · exact valid_of_small _ _ hl
      · exact valid_of_bounds neg _ 1 (by
          calc 2 ^ (52 + 1) = 2 ^ 53 := by norm_num
            _ ≤ roundMag n d := hl) (le_trans hu (by norm_num))
          (by rw [le_antisymm hu hl]; norm_num) h
    · refine valid_of_bounds neg _ (ulpShift (n / d)) (roundMag_lower hd hq h0)
        (roundMag_upper hd hq) ?_ h
      unfold roundMag
      exact Dvd.intro_left _ rfl
  · rfl

/-- The bit pattern of a binary64 number denotes a well-formed value. -/
theorem ofBits_valid (b : Nat) : (F64.ofBits b).valid = true := by
  unfold F64.ofBits
  split_ifs with h1 h2 h3
  · rfl
  · rfl
  · exact valid_of_small _ _ (lt_trans (Nat.mod_lt _ (by positivity)) (by norm_num))
  · have he : b / 2 ^ 52 % 2048 < 2047 := by
      have := Nat.mod_lt (b / 2 ^ 52) (by norm_num : 0 < 2048)
      omega
    have hf : b % 2 ^ 52 < 2 ^ 52 := Nat.mod_lt _ (by positivity)
    refine valid_of_bounds _ _ (b / 2 ^ 52 % 2048 - 1) ?_ ?_ (Dvd.intro_left _ rfl) ?_
    · rw [pow_add]; exact Nat.mul_le_mul_right _ (by omega)
    · rw [pow_add]; exact Nat.mul_le_mul_right _ (by omega)
    · unfold overflowMag
      calc (2 ^ 52 + b % 2 ^ 52) * 2 ^ (b / 2 ^ 52 % 2048 - 1)
          < 2 ^ 53 * 2 ^ (b / 2 ^ 52 % 2048 - 1) :=
            Nat.mul_lt_mul_of_pos_right (by omega) (by positivity)
        _ ≤ 2 ^ 53 * 2 ^ 2045 :=
            Nat.mul_le_mul_left _ (Nat.pow_le_pow_right (by norm_num) (by omega))
        _ = 2 ^ 2098 := by rw [← pow_add]

theorem mag_lt_of_valid {s : Bool} {a : Nat} (h : (F64.fin s a).valid = true) :
    a < overflowMag := by
  simp only [F64.valid, Bool.and_eq_true, decide_eq_true_eq] at h
  exact h.1

/-- The sum of well-formed values is well-formed. -/
theorem add_valid {x y : F64} (hx : x.valid = true) (hy : y.valid = true) :
    (F64.add x y).valid = true := by
  cases x with
  | nan => cases y <;> rfl
  | inf s =>
    cases y with
    | nan => rfl
    | inf t => simp only [F64.add]; split_ifs <;> rfl
    | fin t b => rfl
  | fin s a =>
    cases y with
    | nan => rfl
    | inf t => rfl
    | fin t b =>
      have ha := mag_lt_of_valid hx
      have hb := mag_lt_of_valid hy
      have hr : ∀ n : Nat, n ≤ a + b → n / 1 < 2 ^ 8192 := by
        intro n hn
        rw [Nat.div_one]
        exact lt_of_le_of_lt hn (lt_trans (Nat.add_lt_add ha hb) overflowMag_add_lt)
      simp only [F64.add]
      split_ifs
      · exact round_valid _ _ _ Nat.one_pos (hr _ le_rfl)
      · exact round_valid _ _ _ Nat.one_pos (hr _ (by omega))
      · exact round_valid _ _ _ Nat.one_pos (hr _ (by omega))
      · decide

/-- The product of well-formed values is well-formed. -/
theorem mul_valid {x y : F64} (hx : x.valid = true) (hy : y.valid = true) :
    (F64.mul x y).valid = true := by
  cases x with
  | nan => cases y <;> rfl
  | inf s =>
    cases y with
    | nan => rfl
    | inf t => rfl
    | fin t b => simp only [F64.mul]; split_ifs <;> rfl
  | fin s a =>
    cases y with
    | nan => rfl
    | inf t => simp only [F64.mul]; split_ifs <;> rfl
    | fin t b =>
      simp only [F64.mul]
      refine round_valid _ _ _ (pow_pos (by norm_num) _) ?_
      exact lt_of_le_of_lt (Nat.div_le_self _ _) (lt_of_le_of_lt
        (Nat.mul_le_mul (mag_lt_of_valid hx).le (mag_lt_of_valid hy).le) overflowMag_lt)

/-- The quotient of well-formed values is well-formed. -/
theorem div_valid {x y : F64} (hx : x.valid = true) (_hy : y.valid = true) :
    (F64.div x y).valid = true := by
  cases x with
  | nan => cases y <;> rfl
  | inf s =>
    cases y with
    | nan => rfl
    | inf t => rfl
    | fin t b => rfl
  | fin s a =>
    cases y with
    | nan => rfl
    | inf t => exact valid_of_small _ _ (by norm_num)
    | fin t b =>
      simp only [F64.div]
      split_ifs with h1 h2
      · rfl
      · rfl
      · refine round_valid _ _ _ (Nat.pos_of_ne_zero h1) ?_
        have hp : (2 : ℕ) ^ 1074 ≤ overflowMag := by
          unfold overflowMag; exact Nat.pow_le_pow_right (by norm_num) (by norm_num)
        exact lt_of_le_of_lt (Nat.div_le_self _ _) (lt_of_le_of_lt
          (Nat.mul_le_mul (mag_lt_of_valid hx).le hp) overflowMag_lt)

/-- Known binary64 facts, as checks of the arithmetic model: the constant `98.6`,
`0.1 + 0.2`, `1 / 3`, the largest finite number and the two results of the test
table that are not integers. -/
theorem model_checks :
    F64.ofRatio 986 10 = F64.ofBits 0x4058a66666666666
    ∧ F64.ofRatio 1 10 + F64.ofRatio 2 10 = F64.ofBits 0x3fd3333333333334
    ∧ (1 : F64) / 3 = F64.ofBits 0x3fd5555555555555
    ∧ F64.fin false (2 ^ 2097) = F64.ofBits 0x7fe0000000000000
    ∧ F64.fin false ((2 ^ 53 - 1) * 2 ^ 2045) + F64.fin false (2 ^ 2044) = F64.inf false
    ∧ (F64.ofRatio 986 10 - 32) * 5 / 9 = F64.ofBits 0x4042800000000000
    ∧ ((0 : F64) - 32) * 5 / 9 = F64.ofBits 0xc031c71c71c71c72
    ∧ (37 : F64) * 9 / 5 + 32 = F64.ofBits 0x4058a66666666666 := by
  refine ⟨?_, ?_, ?_, ?_, ?_, ?_, ?_, ?_⟩ <;> decide

theorem toRat_eq_key (s : Bool) (m : Nat) :
    (F64.fin s m).toRat = ((F64.fin s m).key : ℚ) / 2 ^ 1074 := by
  cases s <;> simp [F64.toRat, F64.key]

theorem within_spec (r : F64) (p : Int) (q tn td : Nat) (hq : 0 < q) (htd : 0 < td)
    (h : r.within p q tn td = true) : |r.toRat - (p : ℚ) / q| < (tn : ℚ) / td := by
  cases r with
  | nan => simp [F64.within] at h
  | inf s => simp [F64.within] at h
  | fin s m =>
    simp only [F64.within, decide_eq_true_eq] at h
    have hP : (0 : ℚ) < 2 ^ 1074 := pow_pos (by norm_num) _
    have hqq : (0 : ℚ) < q := by exact_mod_cast hq
    have htq : (0 : ℚ) < td := by exact_mod_cast htd
    have hc : (|(F64.fin s m).key * (q : Int) - p * 2 ^ 1074| : Int) * (td : Int)
        < (tn : Int) * ((q : Int) * 2 ^ 1074) := by
      have h2 : ((2 ^ 1074 : ℕ) : Int) = 2 ^ 1074 := by
        simp only [Nat.cast_pow, Nat.cast_ofNat]
      rw [h2] at h
      rw [← Int.natCast_natAbs]
      exact_mod_cast h
    have hcq : |((F64.fin s m).key : ℚ) * (q : ℚ) - (p : ℚ) * 2 ^ 1074| * (td : ℚ)
        < (tn : ℚ) * ((q : ℚ) * 2 ^ 1074) := by
      exact_mod_cast hc
    rw [toRat_eq_key]
    generalize ((F64.fin s m).key : ℚ) = k at hcq ⊢
    generalize (2 : ℚ) ^ 1074 = P at hP hcq ⊢
    have e : k / P - (p : ℚ) / q = (k * q - p * P) / (q * P) := by
      field_simp
      ring
    rw [e, abs_div, abs_of_pos (mul_pos hqq hP), div_lt_div_iff₀ (mul_pos hqq hP) htq]
    exact hcq


/-! ## What the handlers return -/

theorem FahrenheitToCelsius_ok {α : Type} [Add α] [Sub α] [Mul α] [Div α] [OfNat α 32]
    [OfNat α 5] [OfNat α 9] (s : server) (ctx : Context) (req : FahrenheitRequest α)
    (log : Logger α) :
    s.FahrenheitToCelsius ctx (some req) log
      = .ok (some ⟨(req.Fahrenheit - 32) * 5 / 9⟩, none,
          log ++ [⟨"FahrenheitToCelsius: %.2f°F -> %.2f°C",
            [req.Fahrenheit, (req.Fahrenheit - 32) * 5 / 9]⟩]) := rfl

theorem CelsiusToFahrenheit_ok {α : Type} [Add α] [Sub α] [Mul α] [Div α] [OfNat α 32]
    [OfNat α 5] [OfNat α 9] (s : server) (ctx : Context) (req : CelsiusRequest α)
    (log : Logger α) :
    s.CelsiusToFahrenheit ctx (some req) log
      = .ok (some ⟨req.Celsius * 9 / 5 + 32⟩, none,
          log ++ [⟨"CelsiusToFahrenheit: %.2f°C -> %.2f°F",
            [req.Celsius, req.Celsius * 9 / 5 + 32]⟩]) := rfl

theorem celsiusOf_eq {α : Type} [Add α] [Sub α] [Mul α] [Div α] [OfNat α 32]
    [OfNat α 5] [OfNat α 9] (s : server) (ctx : Context) (log : Logger α) (f : α) :
    celsiusOf s ctx log f = some ((f - 32) * 5 / 9) := rfl

theorem fahrenheitOf_eq {α : Type} [Add α] [Sub α] [Mul α] [Div α] [OfNat α 32]
    [OfNat α 5] [OfNat α 9] (s : server) (ctx : Context) (log : Logger α) (c : α) :
    fahrenheitOf s ctx log c = some (c * 9 / 5 + 32) := rfl


theorem le_iff (a b : F64) :
    F64.le a b = true ↔ a.isNaN = false ∧ b.isNaN = false ∧ a.key ≤ b.key := by
  simp [F64.le, and_assoc]

/-- The binary64 evaluation of `(x - 32) * 5 / 9` preserves the order. -/
theorem f2c_mono {x y : F64} (hx : x.ok) (hy : y.ok) (h : x.key ≤ y.key) :
    ((x - 32) * 5 / 9 : F64).ok ∧ ((y - 32) * 5 / 9 : F64).ok
      ∧ ((x - 32) * 5 / 9 : F64).key ≤ ((y - 32) * 5 / 9 : F64).key := by
  have h32 : (2 : ℕ) ^ 1079 < overflowMag := by unfold overflowMag; norm_num
  obtain ⟨a1, a2, a3⟩ := add_const_mono true (2 ^ 1079) h32 hx hy h
  obtain ⟨b1, b2, b3⟩ := mul_const_mono (5 * 2 ^ 1074) (by positivity)
    (small_lt_overflowMag 5 (by norm_num)) a1 a2 a3
  have := div_const_mono (9 * 2 ^ 1074) (by positivity) b1 b2 b3
  have e : ∀ z : F64, ((z - 32) * 5 / 9 : F64)
      = F64.div (F64.mul (F64.add z (.fin true (2 ^ 1079))) (.fin false (5 * 2 ^ 1074)))
          (.fin false (9 * 2 ^ 1074)) := by
    intro z
    show F64.div (F64.mul (F64.add z (F64.neg (32 : F64))) (5 : F64)) (9 : F64) = _
    rw [const_32, const_5, const_9]; rfl
  rw [e, e]; exact this

/-- The binary64 evaluation of `x * 9 / 5 + 32` preserves the order. -/
theorem c2f_mono {x y : F64} (hx : x.ok) (hy : y.ok) (h : x.key ≤ y.key) :
    (x * 9 / 5 + 32 : F64).ok ∧ (y * 9 / 5 + 32 : F64).ok
      ∧ (x * 9 / 5 + 32 : F64).key ≤ (y * 9 / 5 + 32 : F64).key := by
  have h32 : (2 : ℕ) ^ 1079 < overflowMag := by unfold overflowMag; norm_num
  obtain ⟨a1, a2, a3⟩ := mul_const_mono (9 * 2 ^ 1074) (by positivity)
    (small_lt_overflowMag 9 (by norm_num)) hx hy h
  obtain ⟨b1, b2, b3⟩ := div_const_mono (5 * 2 ^ 1074) (by positivity) a1 a2 a3
  have := add_const_mono false (2 ^ 1079) h32 b1 b2 b3
  have e : ∀ z : F64, (z * 9 / 5 + 32 : F64)
      = F64.add (F64.div (F64.mul z (.fin false (9 * 2 ^ 1074))) (.fin false (5 * 2 ^ 1074)))
          (.fin false (2 ^ 1079)) := by
    intro z
    show F64.add (F64.div (F64.mul z (9 : F64)) (5 : F64)) (32 : F64) = _
    rw [const_32, const_5, const_9]
  rw [e, e]; exact this


/-! ## Round trips: error of a finite result -/

/-- A rounding that does not overflow is within half a unit in the last place of
the exact value, whatever the size of that value. -/
theorem round_near (neg : Bool) (n d : Nat) (e : ℚ) (hd : 0 < d) (hq : n / d < 2 ^ 8192)
    (he : e = (if neg then -1 else 1) * ((n : ℚ) / d / 2 ^ 1074))
    (hf : (F64.round neg n d).isFinite = true) :
    (F64.round neg n d).Approx e := by
  have hdq : (0 : ℚ) < d := by exact_mod_cast hd
  have hx0 : (0 : ℚ) ≤ (n : ℚ) / d := div_nonneg (Nat.cast_nonneg n) hdq.le
  have hp : (0 : ℚ) < 2 ^ 1074 := pow_pos (by norm_num) _
  have hsgn : |(if neg = true then (-1 : ℚ) else 1)| = 1 := by cases neg <;> simp
  have habs : |e| = (n : ℚ) / d / 2 ^ 1074 := by
    rw [he, abs_mul, hsgn, one_mul, abs_of_nonneg (div_nonneg hx0 hp.le)]
  have herr := roundMag_err hd hq
  have hlt : roundMag n d < overflowMag := by
    by_contra hc
    unfold F64.round at hf
    rw [if_neg hc] at hf
    exact absurd hf (by simp [F64.isFinite])
  refine ⟨neg, roundMag n d, ?_, hlt, ?_⟩
  · unfold F64.round; rw [if_pos hlt]
  · unfold F64.round; rw [if_pos hlt, toRat_fin, habs, he]
    rw [← mul_sub, abs_mul, hsgn, one_mul, ← sub_div, abs_div, abs_of_pos hp]
    rw [div_le_iff₀ hp]
    refine le_trans herr ?_
    rw [max_mul_of_nonneg _ _ hp.le]
    apply max_le_max
    · have h5 : (2 : ℚ) ^ 1075 = 2 * 2 ^ 1074 := pow_succ' 2 1074
      rw [one_div, one_div, h5, mul_inv, mul_assoc, inv_mul_cancel₀ hp.ne', mul_one]
    · apply le_of_eq; field_simp; ring

theorem add_near (s t : Bool) (a b : Nat) (ha : a < overflowMag) (hb : b < overflowMag)
    (hf : (F64.add (.fin s a) (.fin t b)).isFinite = true) :
    (F64.add (.fin s a) (.fin t b)).Approx ((F64.fin s a).toRat + (F64.fin t b).toRat) := by
  have hr : ∀ n : Nat, n ≤ a + b → n / 1 < 2 ^ 8192 := by
    intro n hn
    rw [Nat.div_one]
    exact lt_of_le_of_lt hn (lt_trans (Nat.add_lt_add ha hb) overflowMag_add_lt)
  simp only [F64.add] at hf ⊢
  split_ifs at hf ⊢ with h1 h2 h3
  · subst h1
    refine round_near _ _ 1 _ Nat.one_pos (hr _ le_rfl) ?_ hf
    rw [toRat_fin, toRat_fin]; push_cast; ring
  · refine round_near _ _ 1 _ Nat.one_pos (hr _ (by omega)) ?_ hf
    rw [toRat_fin, toRat_fin, Nat.cast_sub h2.le]
    cases s <;> cases t <;> simp at h1 ⊢ <;> ring
  · refine round_near _ _ 1 _ Nat.one_pos (hr _ (by omega)) ?_ hf
    rw [toRat_fin, toRat_fin, Nat.cast_sub h3.le]
    cases s <;> cases t <;> simp at h1 ⊢ <;> ring
  · have hab : a = b := by omega
    subst hab
    refine ⟨false, 0, rfl, by omega, ?_⟩
    have : (F64.fin s a).toRat + (F64.fin t a).toRat = 0 := by
      rw [toRat_fin, toRat_fin]
      cases s <;> cases t <;> simp at h1 ⊢
    rw [this]
    simp [F64.toRat]

theorem mul_near (s t : Bool) (a b : Nat) (ha : a < overflowMag) (hb : b < overflowMag)
    (hf : (F64.mul (.fin s a) (.fin t b)).isFinite = true) :
    (F64.mul (.fin s a) (.fin t b)).Approx ((F64.fin s a).toRat * (F64.fin t b).toRat) := by
  have hOO := overflowMag_lt
  simp only [F64.mul] at hf ⊢
  refine round_near _ _ _ _ (pow_pos (by norm_num) _) ?_ ?_ hf
  · refine lt_of_le_of_lt (Nat.div_le_self _ _) (lt_of_le_of_lt ?_ hOO)
    exact Nat.mul_le_mul ha.le hb.le
  · rw [toRat_fin, toRat_fin]
    simp only [Nat.cast_mul, Nat.cast_pow, Nat.cast_ofNat]
    have hp : (2 : ℚ) ^ 1074 ≠ 0 := pow_ne_zero _ (by norm_num)
    rw [sign_xor]
    generalize (2 : ℚ) ^ 1074 = P at hp ⊢
    field_simp

theorem div_near (s t : Bool) (a b : Nat) (ha : a < overflowMag) (hb0 : b ≠ 0)
    (hf : (F64.div (.fin s a) (.fin t b)).isFinite = true) :
    (F64.div (.fin s a) (.fin t b)).Approx ((F64.fin s a).toRat / (F64.fin t b).toRat) := by
  have hOO := overflowMag_lt
  simp only [F64.div, if_neg hb0] at hf ⊢
  refine round_near _ _ _ _ (Nat.pos_of_ne_zero hb0) ?_ ?_ hf
  · refine lt_of_le_of_lt (Nat.div_le_self _ _) (lt_of_le_of_lt ?_ hOO)
    refine Nat.mul_le_mul ha.le ?_
    unfold overflowMag
    exact Nat.pow_le_pow_right (by norm_num) (by norm_num)
  · rw [toRat_fin, toRat_fin]
    simp only [Nat.cast_mul, Nat.cast_pow, Nat.cast_ofNat]
    have hp : (2 : ℚ) ^ 1074 ≠ 0 := pow_ne_zero _ (by norm_num)
    have hbq : (b : ℚ) ≠ 0 := by exact_mod_cast hb0
    rw [sign_xor, mul_div_mul_comm, sign_div]
    generalize (2 : ℚ) ^ 1074 = P at hp ⊢
    generalize (if s = true then (-1 : ℚ) else 1) = σ
    generalize (if t = true then (-1 : ℚ) else 1) = τ
    field_simp
    ring

/-- A finite sum with a finite constant has a finite first operand and is the
exact sum up to one rounding. -/
theorem addc_fin (z : F64) (t : Bool) (c : Nat) (hc : c < overflowMag) (hz : z.ok)
    (hf : (F64.add z (.fin t c)).isFinite = true) :
    z.isFinite = true ∧
      |(F64.add z (.fin t c)).toRat - (z.toRat + (F64.fin t c).toRat)|
        ≤ 1 / 2 ^ 1075 + |z.toRat + (F64.fin t c).toRat| / 2 ^ 53 := by
  cases z with
  | nan => exact absurd hz (by simp [F64.ok])
  | inf s => exact absurd hf (by simp [F64.add, F64.isFinite])
  | fin s a =>
    obtain ⟨_, _, _, _, herr⟩ := approx_elim (add_near s t a c hz hc hf)
    exact ⟨rfl, herr⟩

theorem mulc_fin (z : F64) (c : Nat) (hc : c < overflowMag) (hz : z.ok)
    (hf : (F64.mul z (.fin false c)).isFinite = true) :
    z.isFinite = true ∧
      |(F64.mul z (.fin false c)).toRat - (z.toRat * (F64.fin false c).toRat)|
        ≤ 1 / 2 ^ 1075 + |z.toRat * (F64.fin false c).toRat| / 2 ^ 53 := by
  cases z with
  | nan => exact absurd hz (by simp [F64.ok])
  | inf s =>
    simp only [F64.mul] at hf
    split_ifs at hf <;> exact absurd hf (by simp [F64.isFinite])
  | fin s a =>
    obtain ⟨_, _, _, _, herr⟩ := approx_elim (mul_near s false a c hz hc hf)
    exact ⟨rfl, herr⟩

theorem divc_fin (z : F64) (c : Nat) (hc0 : c ≠ 0) (hz : z.ok)
    (hf : (F64.div z (.fin false c)).isFinite = true) :
    z.isFinite = true ∧
      |(F64.div z (.fin false c)).toRat - (z.toRat / (F64.fin false c).toRat)|
        ≤ 1 / 2 ^ 1075 + |z.toRat / (F64.fin false c).toRat| / 2 ^ 53 := by
  cases z with
  | nan => exact absurd hz (by simp [F64.ok])
  | inf s => exact absurd hf (by simp [F64.div, F64.isFinite])
  | fin s a =>
    obtain ⟨_, _, _, _, herr⟩ := approx_elim (div_near s false a c hz hc0 hf)
    exact ⟨rfl, herr⟩

theorem f2c_rt_pure (X S P C M Q R η : ℚ) (hη0 : 0 ≤ η) (hη : η ≤ 1 / 2 ^ 60)
    (h1 : |S - (X - 32)| ≤ η + |X - 32| / 2 ^ 53)
    (h2 : |P - S * 5| ≤ η + |S * 5| / 2 ^ 53)
    (h3 : |C - P / 9| ≤ η + |P / 9| / 2 ^ 53)
    (h4 : |M - C * 9| ≤ η + |C * 9| / 2 ^ 53)
    (h5 : |Q - M / 5| ≤ η + |M / 5| / 2 ^ 53)
    (h6 : |R - (Q + 32)| ≤ η + |Q + 32| / 2 ^ 53) :
    |R - X| ≤ (|X| + 32) / 2 ^ 50 :=
  ((((((f2c_pure (max |X| 64) X η (le_max_right _ _) (le_max_left _ _) hη0 hη).2 S h1).2
    P h2).2 C h3).2.2 M h4).2 Q h5).2 R h6

theorem c2f_rt_pure (X M Q R S P C η : ℚ) (hη0 : 0 ≤ η) (hη : η ≤ 1 / 2 ^ 60)
    (h1 : |M - X * 9| ≤ η + |X * 9| / 2 ^ 53)
    (h2 : |Q - M / 5| ≤ η + |M / 5| / 2 ^ 53)
    (h3 : |R - (Q + 32)| ≤ η + |Q + 32| / 2 ^ 53)
    (h4 : |S - (R - 32)| ≤ η + |R - 32| / 2 ^ 53)
    (h5 : |P - S * 5| ≤ η + |S * 5| / 2 ^ 53)
    (h6 : |C - P / 9| ≤ η + |P / 9| / 2 ^ 53) :
    |C - X| ≤ (|X| + 32) / 2 ^ 50 :=
  ((((((c2f_pure (max |X| 1024) X η (le_max_right _ _) (le_max_left _ _) hη0 hη).2 M h1).2
    Q h2).2 R h3).2.2 S h4).2 P h5).2 C h6

/-- Whenever the binary64 round trip `x ↦ (x - 32) * 5 / 9 ↦ · * 9 / 5 + 32` of a
finite `x` is finite, it is within `2^-50 * (|x| + 32)` of `x`. -/
theorem f2c_rt_fin (x : F64) (hx : x.ok)
    (hf : (((x - 32) * 5 / 9) * 9 / 5 + 32 : F64).isFinite = true) :
    x.isFinite = true ∧
    |(((x - 32) * 5 / 9) * 9 / 5 + 32 : F64).toRat - x.toRat| ≤ (|x.toRat| + 32) / 2 ^ 50 := by
  obtain ⟨hη0, hη, _, _, _⟩ := eta_facts
  have h32 : (2 : ℕ) ^ 1079 < overflowMag := by unfold overflowMag; norm_num
  have h5 := small_lt_overflowMag 5 (by norm_num)
  have h9 := small_lt_overflowMag 9 (by norm_num)
  have n5 : 5 * 2 ^ 1074 ≠ 0 := by positivity
  have n9 : 9 * 2 ^ 1074 ≠ 0 := by positivity
  have e : (((x - 32) * 5 / 9) * 9 / 5 + 32 : F64)
      = F64.add (F64.div (F64.mul (F64.div (F64.mul (F64.add x (.fin true (2 ^ 1079)))
          (.fin false (5 * 2 ^ 1074))) (.fin false (9 * 2 ^ 1074)))
          (.fin false (9 * 2 ^ 1074))) (.fin false (5 * 2 ^ 1074))) (.fin false (2 ^ 1079)) := by
    show F64.add (F64.div (F64.mul (F64.div (F64.mul (F64.add x (F64.neg (32 : F64)))
      (5 : F64)) (9 : F64)) (9 : F64)) (5 : F64)) (32 : F64) = _
    rw [const_32, const_5, const_9]; rfl
  rw [e] at hf ⊢
  have o1 := (add_const_mono true (2 ^ 1079) h32 hx hx le_rfl).1
  have o2 := (mul_const_mono (5 * 2 ^ 1074) n5 h5 o1 o1 le_rfl).1
  have o3 := (div_const_mono (9 * 2 ^ 1074) n9 o2 o2 le_rfl).1
  have o4 := (mul_const_mono (9 * 2 ^ 1074) n9 h9 o3 o3 le_rfl).1
  have o5 := (div_const_mono (5 * 2 ^ 1074) n5 o4 o4 le_rfl).1
  obtain ⟨f5, r6⟩ := addc_fin _ false _ h32 o5 hf
  obtain ⟨f4, r5⟩ := divc_fin _ _ n5 o4 f5
  obtain ⟨f3, r4⟩ := mulc_fin _ _ h9 o3 f4
  obtain ⟨f2, r3⟩ := divc_fin _ _ n9 o2 f3
  obtain ⟨f1, r2⟩ := mulc_fin _ _ h5 o1 f2
  obtain ⟨f0, r1⟩ := addc_fin _ true _ h32 hx f1
  rw [toRat_32] at r6
  rw [toRat_neg_32, ← sub_eq_add_neg] at r1
  rw [toRat_scaled] at r2 r3 r4 r5
  exact ⟨f0, f2c_rt_pure _ _ _ _ _ _ _ _ hη0 hη r1 r2 r3 r4 r5 r6⟩

/-- Whenever the binary64 round trip `x ↦ x * 9 / 5 + 32 ↦ (· - 32) * 5 / 9` of a
finite `x` is finite, it is within `2^-50 * (|x| + 32)` of `x`. -/
theorem c2f_rt_fin (x : F64) (hx : x.ok)
    (hf : (((x * 9 / 5 + 32) - 32) * 5 / 9 : F64).isFinite = true) :
    x.isFinite = true ∧
    |(((x * 9 / 5 + 32) - 32) * 5 / 9 : F64).toRat - x.toRat| ≤ (|x.toRat| + 32) / 2 ^ 50 := by
  obtain ⟨hη0, hη, _, _, _⟩ := eta_facts
  have h32 : (2 : ℕ) ^ 1079 < overflowMag := by unfold overflowMag; norm_num
  have h5 := small_lt_overflowMag 5 (by norm_num)
  have h9 := small_lt_overflowMag 9 (by norm_num)
  have n5 : 5 * 2 ^ 1074 ≠ 0 := by positivity
  have n9 : 9 * 2 ^ 1074 ≠ 0 := by positivity
  have e : (((x * 9 / 5 + 32) - 32) * 5 / 9 : F64)
      = F64.div (F64.mul (F64.add (F64.add (F64.div (F64.mul x (.fin false (9 * 2 ^ 1074)))
          (.fin false (5 * 2 ^ 1074))) (.fin false (2 ^ 1079))) (.fin true (2 ^ 1079)))
          (.fin false (5 * 2 ^ 1074))) (.fin false (9 * 2 ^ 1074)) := by
    show F64.div (F64.mul (F64.add (F64.add (F64.div (F64.mul x (9 : F64)) (5 : F64))
      (32 : F64)) (F64.neg (32 : F64))) (5 : F64)) (9 : F64) = _
    rw [const_32, const_5, const_9]; rfl
  rw [e] at hf ⊢
  have o1 := (mul_const_mono (9 * 2 ^ 1074) n9 h9 hx hx le_rfl).1
  have o2 := (div_const_mono (5 * 2 ^ 1074) n5 o1 o1 le_rfl).1
  have o3 := (add_const_mono false (2 ^ 1079) h32 o2 o2 le_rfl).1
  have o4 := (add_const_mono true (2 ^ 1079) h32 o3 o3 le_rfl).1
  have o5 := (mul_const_mono (5 * 2 ^ 1074) n5 h5 o4 o4 le_rfl).1
  obtain ⟨f5, r6⟩ := divc_fin _ _ n9 o5 hf
  obtain ⟨f4, r5⟩ := mulc_fin _ _ h5 o4 f5
  obtain ⟨f3, r4⟩ := addc_fin _ true _ h32 o3 f4
  obtain ⟨f2, r3⟩ := addc_fin _ false _ h32 o2 f3
  obtain ⟨f1, r2⟩ := divc_fin _ _ n5 o1 f2
  obtain ⟨f0, r1⟩ := mulc_fin _ _ h9 hx f1
  rw [toRat_32] at r3
  rw [toRat_neg_32, ← sub_eq_add_neg] at r4
  rw [toRat_scaled] at r1 r2 r5 r6
  exact ⟨f0, c2f_rt_pure _ _ _ _ _ _ _ _ hη0 hη r1 r2 r3 r4 r5 r6⟩

/-! ## Round trips: where the result is finite -/

/-- Well-formed finite values above `M * 2^k`, a value with unit in the last place
`2^k`, start at `(M + 1) * 2^k`. -/
theorem valid_gap (M k : Nat) (hk : ulpShift (M * 2 ^ k) = k) (s : Bool) (a : Nat)
    (hv : (F64.fin s a).valid = true) (h : M * 2 ^ k < a) : (M + 1) * 2 ^ k ≤ a := by
  simp only [F64.valid, Bool.and_eq_true, decide_eq_true_eq] at hv
  obtain ⟨ha, hm⟩ := hv
  have hO : overflowMag < 2 ^ 8192 := by unfold overflowMag; norm_num
  have hs := ulpShift_mono h.le (lt_trans ha hO)
  rw [hk] at hs
  have hd : 2 ^ k ∣ a :=
    dvd_trans (Nat.pow_dvd_pow 2 hs) (Nat.dvd_of_mod_eq_zero hm)
  obtain ⟨q, rfl⟩ := hd
  have hp : 0 < 2 ^ k := by positivity
  have hq : M < q := by
    by_contra hc
    have : 2 ^ k * q ≤ M * 2 ^ k := by
      rw [Nat.mul_comm]; exact Nat.mul_le_mul_right _ (not_lt.mp hc)
    omega
  calc (M + 1) * 2 ^ k ≤ q * 2 ^ k := Nat.mul_le_mul_right _ hq
    _ = 2 ^ k * q := Nat.mul_comm _ _

theorem finite_of_key {z : F64} (hz : z.ok) (h1 : -(overflowMag : Int) < z.key)
    (h2 : z.key < (overflowMag : Int)) : z.isFinite = true := by
  cases z with
  | nan => exact absurd hz (by simp [F64.ok])
  | inf s =>
    cases s
    · rw [key_inf_false] at h2; omega
    · rw [key_inf_true] at h1; omega
  | fin s m => rfl

theorem key_of_finite {z : F64} (hz : z.ok) (hf : z.isFinite = true) :
    -(overflowMag : Int) < z.key ∧ z.key < (overflowMag : Int) := by
  cases z with
  | nan => exact absurd hz (by simp [F64.ok])
  | inf s => exact absurd hf (by simp [F64.isFinite])
  | fin s m => exact key_fin_lt s m hz

theorem eq_inf_of_key_ge {z : F64} (hz : z.ok) (h : (overflowMag : Int) ≤ z.key) :
    z = .inf false := by
  have hO : (0 : Int) < overflowMag := by unfold overflowMag; positivity
  cases z with
  | nan => exact absurd hz (by simp [F64.ok])
  | inf s =>
    cases s
    · rfl
    · rw [key_inf_true] at h; omega
  | fin s m => have := (key_fin_lt s m hz).2; omega

theorem eq_inf_of_key_le {z : F64} (hz : z.ok) (h : z.key ≤ -(overflowMag : Int)) :
    z = .inf true := by
  have hO : (0 : Int) < overflowMag := by unfold overflowMag; positivity
  cases z with
  | nan => exact absurd hz (by simp [F64.ok])
  | inf s =>
    cases s
    · rw [key_inf_false] at h; omega
    · rfl
  | fin s m => have := (key_fin_lt s m hz).1; omega

/-- A monotone map that is finite at `±M * 2^k` and infinite at the next
well-formed values `±(M + 1) * 2^k` is finite exactly on the well-formed values
between `-M * 2^k` and `M * 2^k`, and is the infinity of the matching sign outside. -/
theorem finite_between (g : F64 → F64)
    (hg : ∀ x y : F64, x.ok → y.ok → x.key ≤ y.key →
      (g x).ok ∧ (g y).ok ∧ (g x).key ≤ (g y).key)
    (M k : Nat) (hk : ulpShift (M * 2 ^ k) = k) (hS : (M + 1) * 2 ^ k < overflowMag)
    (hp : (g (.fin false (M * 2 ^ k))).isFinite = true)
    (hp' : g (.fin false ((M + 1) * 2 ^ k)) = .inf false)
    (hn : (g (.fin true (M * 2 ^ k))).isFinite = true)
    (hn' : g (.fin true ((M + 1) * 2 ^ k)) = .inf true)
    (x : F64) (hv : x.valid = true) (hf : x.isFinite = true) :
    (F64.le (.fin true (M * 2 ^ k)) x = true → F64.le x (.fin false (M * 2 ^ k)) = true →
      (g x).isFinite = true)
    ∧ (F64.le x (.fin false (M * 2 ^ k)) = false → g x = .inf false)
    ∧ (F64.le (.fin true (M * 2 ^ k)) x = false → g x = .inf true) := by
  obtain ⟨s, a, rfl, ha⟩ := fin_of_valid hv hf
  have hT : M * 2 ^ k < overflowMag :=
    lt_of_le_of_lt (Nat.mul_le_mul_right _ (Nat.le_succ M)) hS
  have okx : (F64.fin s a).ok := ha
  have okp : (F64.fin false (M * 2 ^ k)).ok := hT
  have okn : (F64.fin true (M * 2 ^ k)).ok := hT
  have okp' : (F64.fin false ((M + 1) * 2 ^ k)).ok := hS
  have okn' : (F64.fin true ((M + 1) * 2 ^ k)).ok := hS
  refine ⟨?_, ?_, ?_⟩
  · intro h1 h2
    obtain ⟨_, _, k1⟩ := (le_iff _ _).mp h1
    obtain ⟨_, _, k2⟩ := (le_iff _ _).mp h2
    obtain ⟨gn, gx, m1⟩ := hg _ _ okn okx k1
    obtain ⟨_, gp, m2⟩ := hg _ _ okx okp k2
    have b1 := (key_of_finite gn hn).1
    have b2 := (key_of_finite gp hp).2
    exact finite_of_key gx (by omega) (by omega)
  · intro h
    have hk' : (F64.fin false (M * 2 ^ k)).key < (F64.fin s a).key := by
      by_contra hc
      have := (le_iff (F64.fin s a) (F64.fin false (M * 2 ^ k))).mpr ⟨rfl, rfl, not_lt.mp hc⟩
      rw [this] at h; exact absurd h (by decide)
    have hs : s = false := by
      cases s
      · rfl
      · simp only [F64.key, if_true, Bool.false_eq_true, if_false] at hk'; omega
    subst hs
    have hlt : M * 2 ^ k < a := by
      simp only [F64.key, Bool.false_eq_true, if_false] at hk'; omega
    have hge := valid_gap M k hk false a hv hlt
    have hkey : (F64.fin false ((M + 1) * 2 ^ k)).key ≤ (F64.fin false a).key := by
      simp only [F64.key, Bool.false_eq_true, if_false]; exact_mod_cast hge
    obtain ⟨_, gx, m⟩ := hg _ _ okp' okx hkey
    rw [hp', key_inf_false] at m
    exact eq_inf_of_key_ge gx m
  · intro h
    have hk' : (F64.fin s a).key < (F64.fin true (M * 2 ^ k)).key := by
      by_contra hc
      have := (le_iff (F64.fin true (M * 2 ^ k)) (F64.fin s a)).mpr ⟨rfl, rfl, not_lt.mp hc⟩
      rw [this] at h; exact absurd h (by decide)
    have hs : s = true := by
      cases s
      · simp only [F64.key, if_true, Bool.false_eq_true, if_false] at hk'; omega
      · rfl
    subst hs
    have hlt : M * 2 ^ k < a := by
      simp only [F64.key, if_true] at hk'; omega
    have hge := valid_gap M k hk true a hv hlt
    have hkey : (F64.fin true a).key ≤ (F64.fin true ((M + 1) * 2 ^ k)).key := by
      simp only [F64.key, if_true]
      have : ((M + 1) * 2 ^ k : ℕ) ≤ a := hge
      omega
    obtain ⟨gx, _, m⟩ := hg _ _ okx okn' hkey
    rw [hn', key_inf_true] at m
    exact eq_inf_of_key_le gx m

theorem rtFC_mono (x y : F64) (hx : x.ok) (hy : y.ok) (h : x.key ≤ y.key) :
    (((x - 32) * 5 / 9) * 9 / 5 + 32 : F64).ok ∧ (((y - 32) * 5 / 9) * 9 / 5 + 32 : F64).ok
      ∧ (((x - 32) * 5 / 9) * 9 / 5 + 32 : F64).key
        ≤ (((y - 32) * 5 / 9) * 9 / 5 + 32 : F64).key := by
  obtain ⟨a1, a2, a3⟩ := f2c_mono hx hy h
  exact c2f_mono a1 a2 a3

theorem rtCF_mono (x y : F64) (hx : x.ok) (hy : y.ok) (h : x.key ≤ y.key) :
    (((x * 9 / 5 + 32) - 32) * 5 / 9 : F64).ok ∧ (((y * 9 / 5 + 32) - 32) * 5 / 9 : F64).ok
      ∧ (((x * 9 / 5 + 32) - 32) * 5 / 9 : F64).key
        ≤ (((y * 9 / 5 + 32) - 32) * 5 / 9 : F64).key := by
  obtain ⟨a1, a2, a3⟩ := c2f_mono hx hy h
  exact f2c_mono a1 a2 a3

/-- The largest finite values with a finite round trip, as magnitudes. -/
theorem round_trip_limits :
    F64.ofBits 0x7fc9999999999998 = .fin false (7205759403792792 * 2 ^ 2043)
    ∧ F64.ofBits 0xffc9999999999998 = .fin true (7205759403792792 * 2 ^ 2043)
    ∧ F64.ofBits 0x7fbc71c71c71c71b = .fin false (8006399337547547 * 2 ^ 2042)
    ∧ F64.ofBits 0xffbc71c71c71c71b = .fin true (8006399337547547 * 2 ^ 2042) := by
  refine ⟨?_, ?_, ?_, ?_⟩ <;> decide

/-- For finite `x` between `-3.595386269724631e307` and `3.595386269724631e307`
the round trip through Celsius is finite and within `2^-50 * (|x| + 32)` of `x`;
beyond, it is the infinity of the sign of `x`. -/
theorem rtFC_spec (x : F64) (hv : x.valid = true) (hf : x.isFinite = true) :
    (F64.le (F64.ofBits 0xffc9999999999998) x = true →
      F64.le x (F64.ofBits 0x7fc9999999999998) = true →
      (((x - 32) * 5 / 9) * 9 / 5 + 32 : F64).isFinite = true
      ∧ |(((x - 32) * 5 / 9) * 9 / 5 + 32 : F64).toRat - x.toRat| ≤ (|x.toRat| + 32) / 2 ^ 50)
    ∧ (F64.le x (F64.ofBits 0x7fc9999999999998) = false →
      (((x - 32) * 5 / 9) * 9 / 5 + 32 : F64) = .inf false)
    ∧ (F64.le (F64.ofBits 0xffc9999999999998) x = false →
      (((x - 32) * 5 / 9) * 9 / 5 + 32 : F64) = .inf true) := by
  obtain ⟨eP, eN, _, _⟩ := round_trip_limits
  rw [eP, eN]
  obtain ⟨b1, b2, b3⟩ := finite_between (fun z => ((z - 32) * 5 / 9) * 9 / 5 + 32) rtFC_mono
    7205759403792792 2043 (by decide) (by decide) (by decide) (by decide) (by decide)
    (by decide) x hv hf
  have okx : x.ok := by
    obtain ⟨s, a, rfl, ha⟩ := fin_of_valid hv hf
    exact ha
  exact ⟨fun h1 h2 => ⟨b1 h1 h2, (f2c_rt_fin x okx (b1 h1 h2)).2⟩, b2, b3⟩

/-- For finite `x` between `-1.997436816513684e307` and `1.997436816513684e307`
the round trip through Fahrenheit is finite and within `2^-50 * (|x| + 32)` of
`x`; beyond, it is the infinity of the sign of `x`. -/
theorem rtCF_spec (x : F64) (hv : x.valid = true) (hf : x.isFinite = true) :
    (F64.le (F64.ofBits 0xffbc71c71c71c71b) x = true →
      F64.le x (F64.ofBits 0x7fbc71c71c71c71b) = true →
      (((x * 9 / 5 + 32) - 32) * 5 / 9 : F64).isFinite = true
      ∧ |(((x * 9 / 5 + 32) - 32) * 5 / 9 : F64).toRat - x.toRat| ≤ (|x.toRat| + 32) / 2 ^ 50)
    ∧ (F64.le x (F64.ofBits 0x7fbc71c71c71c71b) = false →
      (((x * 9 / 5 + 32) - 32) * 5 / 9 : F64) = .inf false)
    ∧ (F64.le (F64.ofBits 0xffbc71c71c71c71b) x = false →
      (((x * 9 / 5 + 32) - 32) * 5 / 9 : F64) = .inf true) := by
  obtain ⟨_, _, eP, eN⟩ := round_trip_limits
  rw [eP, eN]
  obtain ⟨b1, b2, b3⟩ := finite_between (fun z => ((z * 9 / 5 + 32) - 32) * 5 / 9) rtCF_mono
    8006399337547547 2042 (by decide) (by decide) (by decide) (by decide) (by decide)
    (by decide) x hv hf
  have okx : x.ok := by
    obtain ⟨s, a, rfl, ha⟩ := fin_of_valid hv hf
    exact ha
  exact ⟨fun h1 h2 => ⟨b1 h1 h2, (c2f_rt_fin x okx (b1 h1 h2)).2⟩, b2, b3⟩

/-- C1: for every request, `FahrenheitToCelsius` returns the response whose Celsius
field is `(f - 32) * 5 / 9`, evaluated left to right as a binary64 subtraction,
multiplication and division (each correctly rounded; the division is that of
real numbers).  In exact arithmetic the field `c` satisfies `c * 9 = (f - 32) * 5`,
and for finite `|f| ≤ 2^1019` the binary64 result differs from the exact quotient
by at most `2^-51` of it plus one unit `2^-1074`. -/
theorem C1_FahrenheitToCelsius_formula :
    (∀ (s : server) (ctx : Context) (log : Logger F64) (req : FahrenheitRequest F64),
      ∃ log', s.FahrenheitToCelsius ctx (some req) log
        = .ok (some ⟨F64.div (F64.mul (F64.sub req.Fahrenheit (F64.ofNat 32)) (F64.ofNat 5))
            (F64.ofNat 9)⟩, none, log'))
    ∧ (∀ (s : server) (ctx : Context) (log : Logger ℚ) (f : ℚ),
      celsiusOf s ctx log f = some ((f - 32) * 5 / 9) ∧ (f - 32) * 5 / 9 * 9 = (f - 32) * 5)
    ∧ (∀ (s : server) (ctx : Context) (log : Logger F64) (f : F64),
      f.valid = true → f.isFinite = true → |f.toRat| ≤ 2 ^ 1019 →
      ∃ c, celsiusOf s ctx log f = some c ∧ c.isFinite = true ∧
        |c.toRat - (f.toRat - 32) * 5 / 9| ≤ |(f.toRat - 32) * 5 / 9| / 2 ^ 51 + 1 / 2 ^ 1074) := by
  refine ⟨fun s ctx log req => ⟨_, FahrenheitToCelsius_ok s ctx req log⟩, ?_, ?_⟩
  · intro s ctx log f
    refine ⟨rfl, ?_⟩
    field_simp
  · intro s ctx log f hv hf hb
    obtain ⟨sg, a, rfl, ha⟩ := fin_of_valid hv hf
    obtain ⟨c, r, hc, _, hcf, _, hacc, _⟩ := f2c_float sg a ha hb
    exact ⟨c, by rw [celsiusOf_eq, hc], hcf, hacc⟩

/-- Instance of C1 at `f = 212`. -/
theorem C1_FahrenheitToCelsius_formula_witness :
    (F64.fin false (212 * 2 ^ 1074)).valid = true ∧
    (F64.fin false (212 * 2 ^ 1074)).isFinite = true ∧
    |(F64.fin false (212 * 2 ^ 1074)).toRat| ≤ 2 ^ 1019 ∧
    ∃ c, celsiusOf ⟨⟨⟩⟩ ⟨none, false, []⟩ [] (F64.fin false (212 * 2 ^ 1074)) = some c ∧
      c.isFinite = true ∧
      |c.toRat - ((F64.fin false (212 * 2 ^ 1074)).toRat - 32) * 5 / 9|
        ≤ |((F64.fin false (212 * 2 ^ 1074)).toRat - 32) * 5 / 9| / 2 ^ 51 + 1 / 2 ^ 1074 :=
  have hb : |(F64.fin false (212 * 2 ^ 1074)).toRat| ≤ 2 ^ 1019 := by
    rw [toRat_scaled]; norm_num
  ⟨by decide, rfl, hb,
    C1_FahrenheitToCelsius_formula.2.2 ⟨⟨⟩⟩ ⟨none, false, []⟩ [] _ (by decide) rfl hb⟩

/-- C2: for every request, `CelsiusToFahrenheit` returns the response whose
Fahrenheit field is `c * 9 / 5 + 32`, evaluated left to right as a binary64
multiplication, division and addition (each correctly rounded; the division is
that of real numbers).  In exact arithmetic the field `f` satisfies
`(f - 32) * 5 = c * 9`, and for finite `|c| ≤ 2^1019` the binary64 result differs
from the exact value by at most `2^-51 * (|c * 9 / 5| + 32)`. -/
theorem C2_CelsiusToFahrenheit_formula :
    (∀ (s : server) (ctx : Context) (log : Logger F64) (req : CelsiusRequest F64),
      ∃ log', s.CelsiusToFahrenheit ctx (some req) log
        = .ok (some ⟨F64.add (F64.div (F64.mul req.Celsius (F64.ofNat 9)) (F64.ofNat 5))
            (F64.ofNat 32)⟩, none, log'))
    ∧ (∀ (s : server) (ctx : Context) (log : Logger ℚ) (c : ℚ),
      fahrenheitOf s ctx log c = some (c * 9 / 5 + 32) ∧ (c * 9 / 5 + 32 - 32) * 5 = c * 9)
    ∧ (∀ (s : server) (ctx : Context) (log : Logger F64) (c : F64),
      c.valid = true → c.isFinite = true → |c.toRat| ≤ 2 ^ 1019 →
      ∃ f, fahrenheitOf s ctx log c = some f ∧ f.isFinite = true ∧
        |f.toRat - (c.toRat * 9 / 5 + 32)| ≤ (|c.toRat * 9 / 5| + 32) / 2 ^ 51) := by
  refine ⟨fun s ctx log req => ⟨_, CelsiusToFahrenheit_ok s ctx req log⟩, ?_, ?_⟩
  · intro s ctx log c
    refine ⟨rfl, ?_⟩
    ring
  · intro s ctx log c hv hf hb
    obtain ⟨sg, a, rfl, ha⟩ := fin_of_valid hv hf
    obtain ⟨r, c', hr, _, hrf, _, hacc, _⟩ := c2f_float sg a ha hb
    exact ⟨r, by rw [fahrenheitOf_eq, hr], hrf, hacc⟩

/-- Instance of C2 at `c = 100`. -/
theorem C2_CelsiusToFahrenheit_formula_witness :
    (F64.fin false (100 * 2 ^ 1074)).valid = true ∧
    (F64.fin false (100 * 2 ^ 1074)).isFinite = true ∧
    |(F64.fin false (100 * 2 ^ 1074)).toRat| ≤ 2 ^ 1019 ∧
    ∃ f, fahrenheitOf ⟨⟨⟩⟩ ⟨none, false, []⟩ [] (F64.fin false (100 * 2 ^ 1074)) = some f ∧
      f.isFinite = true ∧
      |f.toRat - ((F64.fin false (100 * 2 ^ 1074)).toRat * 9 / 5 + 32)|
        ≤ (|(F64.fin false (100 * 2 ^ 1074)).toRat * 9 / 5| + 32) / 2 ^ 51 :=
  have hb : |(F64.fin false (100 * 2 ^ 1074)).toRat| ≤ 2 ^ 1019 := by
    rw [toRat_scaled]; norm_num
  ⟨by decide, rfl, hb,
    C2_CelsiusToFahrenheit_formula.2.2 ⟨⟨⟩⟩ ⟨none, false, []⟩ [] _ (by decide) rfl hb⟩

/-- C3, as stated, fails in binary64 arithmetic: `x = 2^1023` is a finite
binary64 value, `FahrenheitToCelsius(x)` is `+Inf` (the product `(x - 32) * 5`
overflows), `CelsiusToFahrenheit(+Inf)` is `+Inf`, and `+Inf` is within no
tolerance of `x`; the reverse composition overflows in the same way. -/
theorem C3_round_trip_counterexample :
    (F64.fin false (2 ^ 2097)).valid = true
    ∧ (F64.fin false (2 ^ 2097)).isFinite = true
    ∧ celsiusOf ⟨⟨⟩⟩ ⟨none, false, []⟩ [] (F64.fin false (2 ^ 2097)) = some (F64.inf false)
    ∧ fahrenheitOf ⟨⟨⟩⟩ ⟨none, false, []⟩ [] (F64.inf false) = some (F64.inf false)
    ∧ fahrenheitOf ⟨⟨⟩⟩ ⟨none, false, []⟩ [] (F64.fin false (2 ^ 2097)) = some (F64.inf false)
    ∧ celsiusOf ⟨⟨⟩⟩ ⟨none, false, []⟩ [] (F64.inf false) = some (F64.inf false)
    ∧ (∀ tolerance : F64, tolerance.valid = true →
        floatEquals (F64.inf false) (F64.fin false (2 ^ 2097)) tolerance = false) := by
  refine ⟨by decide, rfl, by decide, by decide, by decide, by decide, ?_⟩
  intro tol hv
  have h1 : F64.abs (F64.inf false - F64.fin false (2 ^ 2097)) = F64.inf false := by decide
  unfold floatEquals
  rw [h1]
  cases tol with
  | nan => rfl
  | inf s => cases s <;> decide
  | fin s m =>
    simp only [F64.valid, Bool.and_eq_true, decide_eq_true_eq] at hv
    have hm : (m : Int) < (overflowMag : Int) := by exact_mod_cast hv.1
    have hk : ¬ ((overflowMag : Int) < (F64.fin s m).key) := by
      cases s <;> simp [F64.key] <;> omega
    simp only [F64.lt, F64.isNaN, Bool.not_false, Bool.true_and, decide_eq_false_iff_not]
    exact hk

/-- C3, amended.  In exact arithmetic the two operations are mutual inverses for
every `x`.  In binary64 arithmetic, for every finite `x` with
`|x| ≤ 3.595386269724631e307` (bit pattern `0x7FC9999999999998`), feeding the result
of `FahrenheitToCelsius(x)` into `CelsiusToFahrenheit` gives a finite value within
`2^-50 * (|x| + 32)` of `x`, and for every finite `x` beyond that bound it gives the
infinity of the sign of `x`.  For the reverse composition the same holds with the
bound `1.997436816513684e307` (bit pattern `0x7FBC71C71C71C71B`).  Either
composition returns `x` for `x = ±Inf` and NaN for NaN. -/
theorem C3_round_trip :
    (∀ (s s' : server) (ctx ctx' : Context) (log log' : Logger ℚ) (x : ℚ),
      (∃ c, celsiusOf s ctx log x = some c ∧ fahrenheitOf s' ctx' log' c = some x)
      ∧ (∃ f, fahrenheitOf s ctx log x = some f ∧ celsiusOf s' ctx' log' f = some x))
    ∧ (∀ (s s' : server) (ctx ctx' : Context) (log log' : Logger F64) (x : F64),
      x.valid = true → x.isFinite = true →
      ∃ c r, celsiusOf s ctx log x = some c ∧ fahrenheitOf s' ctx' log' c = some r
        ∧ (F64.le (F64.ofBits 0xffc9999999999998) x = true →
            F64.le x (F64.ofBits 0x7fc9999999999998) = true →
            r.isFinite = true ∧ |r.toRat - x.toRat| ≤ (|x.toRat| + 32) / 2 ^ 50)
        ∧ (F64.le x (F64.ofBits 0x7fc9999999999998) = false → r = F64.inf false)
        ∧ (F64.le (F64.ofBits 0xffc9999999999998) x = false → r = F64.inf true))
    ∧ (∀ (s s' : server) (ctx ctx' : Context) (log log' : Logger F64) (x : F64),
      x.valid = true → x.isFinite = true →
      ∃ f r, fahrenheitOf s ctx log x = some f ∧ celsiusOf s' ctx' log' f = some r
        ∧ (F64.le (F64.ofBits 0xffbc71c71c71c71b) x = true →
            F64.le x (F64.ofBits 0x7fbc71c71c71c71b) = true →
            r.isFinite = true ∧ |r.toRat - x.toRat| ≤ (|x.toRat| + 32) / 2 ^ 50)
        ∧ (F64.le x (F64.ofBits 0x7fbc71c71c71c71b) = false → r = F64.inf false)
        ∧ (F64.le (F64.ofBits 0xffbc71c71c71c71b) x = false → r = F64.inf true))
    ∧ (∀ (s s' : server) (ctx ctx' : Context) (log log' : Logger F64) (neg : Bool),
      (∃ c, celsiusOf s ctx log (F64.inf neg) = some c
        ∧ fahrenheitOf s' ctx' log' c = some (F64.inf neg))
      ∧ (∃ f, fahrenheitOf s ctx log (F64.inf neg) = some f
        ∧ celsiusOf s' ctx' log' f = some (F64.inf neg)))
    ∧ (∀ (s s' : server) (ctx ctx' : Context) (log log' : Logger F64),
      (∃ c, celsiusOf s ctx log F64.nan = some c ∧ fahrenheitOf s' ctx' log' c = some F64.nan)
      ∧ (∃ f, fahrenheitOf s ctx log F64.nan = some f
        ∧ celsiusOf s' ctx' log' f = some F64.nan)) := by
  refine ⟨?_, ?_, ?_, ?_, ?_⟩
  · intro s s' ctx ctx' log log' x
    refine ⟨⟨_, celsiusOf_eq s ctx log x, ?_⟩, ⟨_, fahrenheitOf_eq s ctx log x, ?_⟩⟩
    · rw [fahrenheitOf_eq]; congr 1; ring
    · rw [celsiusOf_eq]; congr 1; ring
  · intro s s' ctx ctx' log log' x hv hf
    exact ⟨_, _, celsiusOf_eq s ctx log x, fahrenheitOf_eq s' ctx' log' _, rtFC_spec x hv hf⟩
  · intro s s' ctx ctx' log log' x hv hf
    exact ⟨_, _, fahrenheitOf_eq s ctx log x, celsiusOf_eq s' ctx' log' _, rtCF_spec x hv hf⟩
  · intro s s' ctx ctx' log log' neg
    refine ⟨⟨_, celsiusOf_eq s ctx log _, ?_⟩, ⟨_, fahrenheitOf_eq s ctx log _, ?_⟩⟩
    · rw [fahrenheitOf_eq]; cases neg <;> decide
    · rw [celsiusOf_eq]; cases neg <;> decide
  · intro s s' ctx ctx' log log'
    refine ⟨⟨_, celsiusOf_eq s ctx log _, ?_⟩, ⟨_, fahrenheitOf_eq s ctx log _, ?_⟩⟩
    · rw [fahrenheitOf_eq]; rfl
    · rw [celsiusOf_eq]; rfl

/-- Instance of the amended C3 at `x = 98.6` (the binary64 value nearest to it). -/
theorem C3_round_trip_witness :
    (F64.ofRatio 986 10).valid = true ∧ (F64.ofRatio 986 10).isFinite = true
    ∧ F64.le (F64.ofBits 0xffc9999999999998) (F64.ofRatio 986 10) = true
    ∧ F64.le (F64.ofRatio 986 10) (F64.ofBits 0x7fc9999999999998) = true
    ∧ (∃ c r : F64, celsiusOf ⟨⟨⟩⟩ ⟨none, false, []⟩ [] (F64.ofRatio 986 10) = some c
        ∧ fahrenheitOf ⟨⟨⟩⟩ ⟨none, false, []⟩ [] c = some r ∧ r.isFinite = true
        ∧ |r.toRat - (F64.ofRatio 986 10).toRat| ≤ (|(F64.ofRatio 986 10).toRat| + 32) / 2 ^ 50) :=
  have hv : (F64.ofRatio 986 10).valid = true := by decide
  have hf : (F64.ofRatio 986 10).isFinite = true := by decide
  have h1 : F64.le (F64.ofBits 0xffc9999999999998) (F64.ofRatio 986 10) = true := by decide
  have h2 : F64.le (F64.ofRatio 986 10) (F64.ofBits 0x7fc9999999999998) = true := by decide
  ⟨hv, hf, h1, h2,
    match C3_round_trip.2.1 ⟨⟨⟩⟩ ⟨⟨⟩⟩ ⟨none, false, []⟩ ⟨none, false, []⟩ [] [] _ hv hf with
    | ⟨c, r, hc, hr, h, _, _⟩ => ⟨c, r, hc, hr, h h1 h2⟩⟩

/-- C4: `-40` is a fixed point of both operations, with exact equality: the
responses carry the same binary64 value `-40` that was sent, and Go's `==` on
the result and `-40` is true. -/
theorem C4_minus_forty_fixed_point (s : server) (ctx : Context) (log : Logger F64) :
    celsiusOf s ctx log (-(40 : F64)) = some (-(40 : F64))
    ∧ fahrenheitOf s ctx log (-(40 : F64)) = some (-(40 : F64))
    ∧ F64.eq ((-(40 : F64) - 32) * 5 / 9) (-(40 : F64)) = true
    ∧ F64.eq (-(40 : F64) * 9 / 5 + 32) (-(40 : F64)) = true
    ∧ (-(40 : F64)).toRat = -40 := by
  refine ⟨?_, ?_, by decide, by decide, ?_⟩
  · rw [celsiusOf_eq]; decide
  · rw [fahrenheitOf_eq]; decide
  · have h : (-(40 : F64)) = F64.fin true (40 * 2 ^ 1074) := by decide
    have h2 := toRat_scaled 40
    rw [h]
    simp only [F64.toRat, Bool.false_eq_true, if_false, if_true] at h2 ⊢
    rw [neg_div, h2]; norm_num

/-- C5: each of the ten rows of the two test tables holds.  The call returns
without error, `floatEquals(result, expected, 0.01)` is true as the test computes
it in binary64, and the real number the result denotes is at a distance strictly
below `0.01` from the decimal value the row expects. -/
theorem C5_literal_scenarios (s : server) (ctx : Context) (log : Logger F64) :
    (passesFahrenheitToCelsius s ctx log (F64.ofNat 32) (F64.ofNat 0) = true
      ∧ passesFahrenheitToCelsius s ctx log (F64.ofNat 212) (F64.ofNat 100) = true
      ∧ passesFahrenheitToCelsius s ctx log (F64.ofRatio 986 10) (F64.ofNat 37) = true
      ∧ passesFahrenheitToCelsius s ctx log (F64.ofNat 0) (F64.neg (F64.ofRatio 1778 100)) = true
      ∧ passesFahrenheitToCelsius s ctx log (F64.neg (F64.ofNat 40)) (F64.neg (F64.ofNat 40)) = true
      ∧ passesCelsiusToFahrenheit s ctx log (F64.ofNat 0) (F64.ofNat 32) = true
      ∧ passesCelsiusToFahrenheit s ctx log (F64.ofNat 100) (F64.ofNat 212) = true
      ∧ passesCelsiusToFahrenheit s ctx log (F64.ofNat 37) (F64.ofRatio 986 10) = true
      ∧ passesCelsiusToFahrenheit s ctx log (F64.neg (F64.ofNat 40)) (F64.neg (F64.ofNat 40)) = true
      ∧ passesCelsiusToFahrenheit s ctx log (F64.ofNat 20) (F64.ofNat 68) = true)
    ∧ ((∃ c, celsiusOf s ctx log (F64.ofNat 32) = some c ∧ |c.toRat - 0| < 1 / 100)
      ∧ (∃ c, celsiusOf s ctx log (F64.ofNat 212) = some c ∧ |c.toRat - 100| < 1 / 100)
      ∧ (∃ c, celsiusOf s ctx log (F64.ofRatio 986 10) = some c ∧ |c.toRat - 37| < 1 / 100)
      ∧ (∃ c, celsiusOf s ctx log (F64.ofNat 0) = some c ∧ |c.toRat - (-1778 / 100)| < 1 / 100)
      ∧ (∃ c, celsiusOf s ctx log (F64.neg (F64.ofNat 40)) = some c ∧ |c.toRat - (-40)| < 1 / 100)
      ∧ (∃ f, fahrenheitOf s ctx log (F64.ofNat 0) = some f ∧ |f.toRat - 32| < 1 / 100)
      ∧ (∃ f, fahrenheitOf s ctx log (F64.ofNat 100) = some f ∧ |f.toRat - 212| < 1 / 100)
      ∧ (∃ f, fahrenheitOf s ctx log (F64.ofNat 37) = some f ∧ |f.toRat - 986 / 10| < 1 / 100)
      ∧ (∃ f, fahrenheitOf s ctx log (F64.neg (F64.ofNat 40)) = some f
          ∧ |f.toRat - (-40)| < 1 / 100)
      ∧ (∃ f, fahrenheitOf s ctx log (F64.ofNat 20) = some f ∧ |f.toRat - 68| < 1 / 100)) := by
  constructor
  · simp only [passesFahrenheitToCelsius, passesCelsiusToFahrenheit, celsiusOf_eq,
      fahrenheitOf_eq]
    refine ⟨?_, ?_, ?_, ?_, ?_, ?_, ?_, ?_, ?_, ?_⟩ <;> decide
  · have d1 : (0 : ℕ) < 1 := Nat.one_pos
    have d10 : (0 : ℕ) < 10 := by norm_num
    have d100 : (0 : ℕ) < 100 := by norm_num
    refine ⟨⟨_, celsiusOf_eq _ _ _ _, ?_⟩, ⟨_, celsiusOf_eq _ _ _ _, ?_⟩,
      ⟨_, celsiusOf_eq _ _ _ _, ?_⟩, ⟨_, celsiusOf_eq _ _ _ _, ?_⟩,
      ⟨_, celsiusOf_eq _ _ _ _, ?_⟩, ⟨_, fahrenheitOf_eq _ _ _ _, ?_⟩,
      ⟨_, fahrenheitOf_eq _ _ _ _, ?_⟩, ⟨_, fahrenheitOf_eq _ _ _ _, ?_⟩,
      ⟨_, fahrenheitOf_eq _ _ _ _, ?_⟩, ⟨_, fahrenheitOf_eq _ _ _ _, ?_⟩⟩
    · have h := within_spec ((F64.ofNat 32 - 32) * 5 / 9) (0) 1 1 100 d1 d100
        (by decide)
      push_cast at h; simpa using h
    · have h := within_spec ((F64.ofNat 212 - 32) * 5 / 9) (100) 1 1 100 d1 d100
        (by decide)
      push_cast at h; simpa using h
    · have h := within_spec ((F64.ofRatio 986 10 - 32) * 5 / 9) (37) 1 1 100 d1 d100
        (by decide)
      push_cast at h; simpa using h
    · have h := within_spec ((F64.ofNat 0 - 32) * 5 / 9) (-1778) 100 1 100 d100 d100
        (by decide)
      push_cast at h; simpa using h
    · have h := within_spec ((F64.neg (F64.ofNat 40) - 32) * 5 / 9) (-40) 1 1 100 d1 d100
        (by decide)
      push_cast at h; simpa using h
    · have h := within_spec (F64.ofNat 0 * 9 / 5 + 32) (32) 1 1 100 d1 d100
        (by decide)
      push_cast at h; simpa using h
    · have h := within_spec (F64.ofNat 100 * 9 / 5 + 32) (212) 1 1 100 d1 d100
        (by decide)
      push_cast at h; simpa using h
    · have h := within_spec (F64.ofNat 37 * 9 / 5 + 32) (986) 10 1 100 d10 d100
        (by decide)
      push_cast at h; simpa using h
    · have h := within_spec (F64.neg (F64.ofNat 40) * 9 / 5 + 32) (-40) 1 1 100 d1 d100
        (by decide)
      push_cast at h; simpa using h
    · have h := within_spec (F64.ofNat 20 * 9 / 5 + 32) (68) 1 1 100 d1 d100
        (by decide)
      push_cast at h; simpa using h

/-- C6: neither operation fails.  For every request value, NaN and the infinities
included, each handler returns a non-nil response and a nil error (and does not
panic); NaN is answered with NaN and an infinity with the same infinity. -/
theorem C6_never_fails (s : server) (ctx : Context) (log : Logger F64) (x : F64) :
    (∃ resp log', s.FahrenheitToCelsius ctx (some ⟨x⟩) log = .ok (some resp, none, log'))
    ∧ (∃ resp log', s.CelsiusToFahrenheit ctx (some ⟨x⟩) log = .ok (some resp, none, log'))
    ∧ celsiusOf s ctx log F64.nan = some F64.nan
    ∧ fahrenheitOf s ctx log F64.nan = some F64.nan
    ∧ (∀ neg, celsiusOf s ctx log (F64.inf neg) = some (F64.inf neg))
    ∧ (∀ neg, fahrenheitOf s ctx log (F64.inf neg) = some (F64.inf neg)) := by
  refine ⟨⟨_, _, FahrenheitToCelsius_ok s ctx ⟨x⟩ log⟩,
    ⟨_, _, CelsiusToFahrenheit_ok s ctx ⟨x⟩ log⟩, ?_, ?_, ?_, ?_⟩
  · rw [celsiusOf_eq]; rfl
  · rw [fahrenheitOf_eq]; rfl
  · intro neg; rw [celsiusOf_eq]; cases neg <;> decide
  · intro neg; rw [fahrenheitOf_eq]; cases neg <;> decide

/-- C7: the response is a function of the request value alone.  Two calls with
the same request value return the same response and error whatever the receiver,
the context and the logger output left by earlier calls; a `server` value carries
no state (any two are equal); and the only effect of a call is one entry appended
to the logger output, which the call does not read. -/
theorem C7_deterministic (s₁ s₂ : server) (ctx₁ ctx₂ : Context) (log₁ log₂ : Logger F64)
    (x : F64) :
    (s₁.FahrenheitToCelsius ctx₁ (some ⟨x⟩) log₁).map (fun r => (r.1, r.2.1))
      = (s₂.FahrenheitToCelsius ctx₂ (some ⟨x⟩) log₂).map (fun r => (r.1, r.2.1))
    ∧ (s₁.CelsiusToFahrenheit ctx₁ (some ⟨x⟩) log₁).map (fun r => (r.1, r.2.1))
      = (s₂.CelsiusToFahrenheit ctx₂ (some ⟨x⟩) log₂).map (fun r => (r.1, r.2.1))
    ∧ s₁ = s₂
    ∧ (∃ entry, ∀ (s : server) (ctx : Context) (log : Logger F64),
        (s.FahrenheitToCelsius ctx (some ⟨x⟩) log).map (fun r => r.2.2) = .ok (log ++ [entry]))
    ∧ (∃ entry, ∀ (s : server) (ctx : Context) (log : Logger F64),
        (s.CelsiusToFahrenheit ctx (some ⟨x⟩) log).map (fun r => r.2.2) = .ok (log ++ [entry])) := by
  have hs : s₁ = s₂ := by
    cases s₁ with | mk u₁ => cases s₂ with | mk u₂ => cases u₁; cases u₂; rfl
  refine ⟨rfl, rfl, hs,
    ⟨⟨"FahrenheitToCelsius: %.2f°F -> %.2f°C", [x, (x - 32) * 5 / 9]⟩, fun s ctx log => ?_⟩,
    ⟨⟨"CelsiusToFahrenheit: %.2f°C -> %.2f°F", [x, x * 9 / 5 + 32]⟩, fun s ctx log => ?_⟩⟩
  · rw [FahrenheitToCelsius_ok]; rfl
  · rw [CelsiusToFahrenheit_ok]; rfl

/-! ## Start-up -/

/-- The listen address `main` computes from the environment. -/
theorem main_unfold (env : Environ) (listen : String → Bool) (newHealth : HealthServer) :
    main env listen newHealth
      = if listen (":" ++ (if Getenv env "PORT" = "" then "50051" else Getenv env "PORT")) then
          ⟨Phase.serving, ":" ++ (if Getenv env "PORT" = "" then "50051" else Getenv env "PORT"),
            [Service.TemperatureConverter] ++ [Service.Health] ++ [Service.Reflection],
            some (newHealth.SetServingStatus "" ServingStatus.SERVING), []⟩
        else
          ⟨Phase.stopped, ":" ++ (if Getenv env "PORT" = "" then "50051" else Getenv env "PORT"),
            [], none, []⟩ := rfl

theorem main_address (env : Environ) (listen : String → Bool) (newHealth : HealthServer) :
    (main env listen newHealth).address
      = ":" ++ (if Getenv env "PORT" = "" then "50051" else Getenv env "PORT") := by
  rw [main_unfold]
  by_cases hl : listen (":" ++ (if Getenv env "PORT" = "" then "50051"
      else Getenv env "PORT")) = true
  · rw [if_pos hl]
  · rw [if_neg hl]

/-- C8: the listen address depends on the environment through `PORT` only.  It is
`":"` followed by the value of `PORT`, taken verbatim, when that value is not
empty, and `":50051"` when `PORT` is unset or empty; it is the address handed to
`net.Listen`, whose success decides whether the process goes on to serve. -/
theorem C8_listen_address (env : Environ) (listen : String → Bool) (newHealth : HealthServer) :
    (∀ port, env "PORT" = some port → port ≠ "" →
      (main env listen newHealth).address = ":" ++ port)
    ∧ (env "PORT" = none ∨ env "PORT" = some "" →
      (main env listen newHealth).address = ":50051")
    ∧ (∀ (env' : Environ) (listen' : String → Bool) (newHealth' : HealthServer),
      env' "PORT" = env "PORT" →
      (main env' listen' newHealth').address = (main env listen newHealth).address)
    ∧ ((main env listen newHealth).phase = Phase.serving
      ↔ listen (main env listen newHealth).address = true) := by
  refine ⟨?_, ?_, ?_, ?_⟩
  · intro port h hne
    rw [main_address]
    simp [Getenv, h, hne]
  · intro h
    rw [main_address]
    rcases h with h | h <;> simp [Getenv, h]
  · intro env' listen' newHealth' h
    rw [main_address, main_address]
    simp [Getenv, h]
  · rw [main_address, main_unfold]
    by_cases hl : listen (":" ++ (if Getenv env "PORT" = "" then "50051"
        else Getenv env "PORT")) = true
    · rw [if_pos hl]; simp [hl]
    · rw [if_neg hl]; simp [hl]

/-- Instance of C8: `PORT=8080` gives `":8080"`, an unset `PORT` gives `":50051"`. -/
theorem C8_listen_address_witness :
    (main (fun k => if k = "PORT" then some "8080" else none) (fun _ => true)
      ⟨fun _ => none⟩).address = ":8080"
    ∧ (main (fun _ => none) (fun _ => true) ⟨fun _ => none⟩).address = ":50051" :=
  ⟨(C8_listen_address (fun k => if k = "PORT" then some "8080" else none) (fun _ => true)
      ⟨fun _ => none⟩).1 "8080" (by simp) (by decide),
   (C8_listen_address (fun _ => none) (fun _ => true) ⟨fun _ => none⟩).2.1 (Or.inl rfl)⟩

theorem step_health (p : Process) (ev : Event) : (p.step ev).health = p.health := by
  unfold Process.step
  split
  · split
    · split <;> rfl
    · split <;> rfl
    · rfl
    · rfl
    · rfl
  · rfl

theorem step_phase (p : Process) (ev : Event) :
    (p.step ev).phase = p.phase ∨ (p.step ev).phase = Phase.stopped := by
  unfold Process.step
  split
  · split
    · split
      · left; rfl
      · right; rfl
    · split
      · left; rfl
      · right; rfl
    · left; rfl
    · left; rfl
    · right; rfl
  · left; rfl

theorem run_health (p : Process) (evs : List Event) : (p.run evs).health = p.health := by
  induction evs generalizing p with
  | nil => rfl
  | cons ev evs ih =>
    show ((p.step ev).run evs).health = p.health
    rw [ih, step_health]

theorem run_phase (p : Process) (evs : List Event) :
    (p.run evs).phase = p.phase ∨ (p.run evs).phase = Phase.stopped := by
  induction evs generalizing p with
  | nil => left; rfl
  | cons ev evs ih =>
    show ((p.step ev).run evs).phase = p.phase ∨ ((p.step ev).run evs).phase = Phase.stopped
    rcases ih (p.step ev) with h | h
    · rw [h]; exact step_phase p ev
    · right; exact h

theorem main_health (env : Environ) (listen : String → Bool) (newHealth : HealthServer)
    (h : (main env listen newHealth).phase = Phase.serving) :
    (main env listen newHealth).health
      = some (newHealth.SetServingStatus "" ServingStatus.SERVING) := by
  rw [main_unfold] at h ⊢
  by_cases hl : listen (":" ++ (if Getenv env "PORT" = "" then "50051"
      else Getenv env "PORT")) = true
  · rw [if_pos hl]
  · rw [if_neg hl] at h; exact absurd h (by simp)

/-- C9: the health status of the empty service name is SERVING from the moment
the process serves and stays so.  `main` sets it before `Serve` is called; in
every state reached afterwards, by any sequence of calls, the health server is
the one `main` left, a check of `""` is answered SERVING while the process
serves, and NOT_SERVING is never the answer.  This holds whatever statuses
`health.NewServer()` starts with. -/
theorem C9_health_serving (env : Environ) (listen : String → Bool) (newHealth : HealthServer)
    (evs : List Event) :
    ((main env listen newHealth).phase = Phase.serving →
      (main env listen newHealth).observe "" = some ServingStatus.SERVING)
    ∧ (((main env listen newHealth).run evs).phase = Phase.serving →
      ((main env listen newHealth).run evs).observe "" = some ServingStatus.SERVING)
    ∧ ((main env listen newHealth).run evs).observe "" ≠ some ServingStatus.NOT_SERVING
    ∧ ((main env listen newHealth).run evs).health = (main env listen newHealth).health
    ∧ (main env listen newHealth).phase ≠ Phase.initializing := by
  have key : ∀ p : Process,
      p.health = some (newHealth.SetServingStatus "" ServingStatus.SERVING) →
      p.phase = Phase.serving → p.observe "" = some ServingStatus.SERVING := by
    intro p hh hp
    unfold Process.observe
    rw [hh, hp]
    simp [HealthServer.Check, HealthServer.SetServingStatus]
  have hrun : ((main env listen newHealth).run evs).phase = Phase.serving →
      ((main env listen newHealth).run evs).observe "" = some ServingStatus.SERVING := by
    intro h
    have h0 : (main env listen newHealth).phase = Phase.serving := by
      rcases run_phase (main env listen newHealth) evs with h' | h'
      · rw [← h', h]
      · rw [h'] at h; exact absurd h (by decide)
    exact key _ (by rw [run_health, main_health env listen newHealth h0]) h
  refine ⟨fun h => key _ (main_health env listen newHealth h) h, hrun, ?_, run_health _ _, ?_⟩
  · by_cases hp : ((main env listen newHealth).run evs).phase = Phase.serving
    · rw [hrun hp]; decide
    · intro hc
      unfold Process.observe at hc
      split at hc
      · next h1 _ => exact hp h1
      · exact absurd hc (by simp)
  · rw [main_unfold]
    by_cases hl : listen (":" ++ (if Getenv env "PORT" = "" then "50051"
        else Getenv env "PORT")) = true
    · rw [if_pos hl]; simp
    · rw [if_neg hl]; simp

/-- Instance of C9: a process that binds its port and then serves two calls. -/
theorem C9_health_serving_witness :
    ((main (fun _ => none) (fun _ => true) ⟨fun _ => some ServingStatus.NOT_SERVING⟩).run
      [Event.HealthCheck "", Event.FahrenheitToCelsius ⟨none, false, []⟩ ⟨F64.ofNat 32⟩]).phase
      = Phase.serving
    ∧ ((main (fun _ => none) (fun _ => true) ⟨fun _ => some ServingStatus.NOT_SERVING⟩).run
      [Event.HealthCheck "", Event.FahrenheitToCelsius ⟨none, false, []⟩ ⟨F64.ofNat 32⟩]).observe ""
      = some ServingStatus.SERVING :=
  ⟨rfl, (C9_health_serving (fun _ => none) (fun _ => true)
    ⟨fun _ => some ServingStatus.NOT_SERVING⟩
    [Event.HealthCheck "", Event.FahrenheitToCelsius ⟨none, false, []⟩ ⟨F64.ofNat 32⟩]).2.1 rfl⟩

/-- C10: both conversions preserve the order of temperatures.  In binary64
arithmetic `a <= b` gives `FahrenheitToCelsius(a) <= FahrenheitToCelsius(b)` and
`CelsiusToFahrenheit(a) <= CelsiusToFahrenheit(b)` (for all values, the infinities
included); in exact arithmetic both maps are strictly increasing and injective. -/
theorem C10_order_preserving :
    (∀ (s : server) (ctx : Context) (log : Logger F64) (a b : F64),
      a.valid = true → b.valid = true → F64.le a b = true →
      ∃ ra rb, celsiusOf s ctx log a = some ra ∧ celsiusOf s ctx log b = some rb
        ∧ F64.le ra rb = true)
    ∧ (∀ (s : server) (ctx : Context) (log : Logger F64) (a b : F64),
      a.valid = true → b.valid = true → F64.le a b = true →
      ∃ ra rb, fahrenheitOf s ctx log a = some ra ∧ fahrenheitOf s ctx log b = some rb
        ∧ F64.le ra rb = true)
    ∧ (∀ (s : server) (ctx : Context) (log : Logger ℚ) (a b : ℚ), a < b →
      ∃ ra rb, celsiusOf s ctx log a = some ra ∧ celsiusOf s ctx log b = some rb ∧ ra < rb)
    ∧ (∀ (s : server) (ctx : Context) (log : Logger ℚ) (a b : ℚ), a < b →
      ∃ ra rb, fahrenheitOf s ctx log a = some ra ∧ fahrenheitOf s ctx log b = some rb
        ∧ ra < rb)
    ∧ (∀ (s : server) (ctx : Context) (log : Logger ℚ) (a b : ℚ),
      (celsiusOf s ctx log a = celsiusOf s ctx log b → a = b)
      ∧ (fahrenheitOf s ctx log a = fahrenheitOf s ctx log b → a = b)) := by
  refine ⟨?_, ?_, ?_, ?_, ?_⟩
  · intro s ctx log a b ha hb h
    obtain ⟨na, nb, hk⟩ := (le_iff a b).mp h
    obtain ⟨o1, o2, o3⟩ := f2c_mono (ok_of_valid ha na) (ok_of_valid hb nb) hk
    exact ⟨_, _, celsiusOf_eq s ctx log a, celsiusOf_eq s ctx log b,
      (le_iff _ _).mpr ⟨isNaN_of_ok o1, isNaN_of_ok o2, o3⟩⟩
  · intro s ctx log a b ha hb h
    obtain ⟨na, nb, hk⟩ := (le_iff a b).mp h
    obtain ⟨o1, o2, o3⟩ := c2f_mono (ok_of_valid ha na) (ok_of_valid hb nb) hk
    exact ⟨_, _, fahrenheitOf_eq s ctx log a, fahrenheitOf_eq s ctx log b,
      (le_iff _ _).mpr ⟨isNaN_of_ok o1, isNaN_of_ok o2, o3⟩⟩
  · intro s ctx log a b h
    refine ⟨_, _, celsiusOf_eq s ctx log a, celsiusOf_eq s ctx log b, ?_⟩
    linarith
  · intro s ctx log a b h
    refine ⟨_, _, fahrenheitOf_eq s ctx log a, fahrenheitOf_eq s ctx log b, ?_⟩
    linarith
  · intro s ctx log a b
    constructor
    · intro h
      rw [celsiusOf_eq, celsiusOf_eq] at h
      have := Option.some.inj h
      linarith
    · intro h
      rw [fahrenheitOf_eq, fahrenheitOf_eq] at h
      have := Option.some.inj h
      linarith

/-- Instance of C10 at `32 <= 212` (binary64) and `32 < 212` (exact). -/
theorem C10_order_preserving_witness :
    (F64.ofNat 32).valid = true ∧ (F64.ofNat 212).valid = true
    ∧ F64.le (F64.ofNat 32) (F64.ofNat 212) = true
    ∧ (∃ ra rb, celsiusOf ⟨⟨⟩⟩ ⟨none, false, []⟩ [] (F64.ofNat 32) = some ra
        ∧ celsiusOf ⟨⟨⟩⟩ ⟨none, false, []⟩ [] (F64.ofNat 212) = some rb ∧ F64.le ra rb = true)
    ∧ (∃ ra rb, celsiusOf ⟨⟨⟩⟩ ⟨none, false, []⟩ ([] : Logger ℚ) 32 = some ra
        ∧ celsiusOf ⟨⟨⟩⟩ ⟨none, false, []⟩ ([] : Logger ℚ) 212 = some rb ∧ ra < rb) :=
  ⟨by decide, by decide, by decide,
    C10_order_preserving.1 ⟨⟨⟩⟩ ⟨none, false, []⟩ [] _ _ (by decide) (by decide) (by decide),
    C10_order_preserving.2.2.1 ⟨⟨⟩⟩ ⟨none, false, []⟩ [] 32 212 (by norm_num)⟩

end TempConverter
